import Mathlib

/- The Batteries definitions of rational arithmetic are marked irreducible,
which blocks kernel evaluation of the executable embedding at concrete
inputs; re-enable reduction for them (their definitions are ordinary
computable functions). -/
set_option allowUnsafeReducibility true
attribute [local semireducible] Rat.add Rat.sub Rat.mul Rat.inv Rat.div

/-!
# GeoQuarry — verification of the persistent disk quadtree

Shallow embedding of `src/src/DiskQuadTree.js` and of the `update`-extended
variant of the same class (`src/unnamed/part_000`).  The durable key-value
store (`level`) is modelled as an association list from numeric node ids to
node records together with the single `meta:root` record; the uuid
collaborator is modelled as a fresh-id counter (`nextId`), which realises the
spec's "globally-unique identifiers" contract.  JS numbers are modelled as
exact rationals (`ℚ`); every coordinate operation the source performs
(`+`, `-`, `/ 2`, comparisons) is exact on the inputs the spec discusses.
Recursive descent over store-linked records is modelled with explicit fuel:
a result of `none` models a thrown store error or divergence, and theorems
about complete runs hypothesise that the run produced `some` result.
-/

namespace GeoQuarry

/-- A stored point: coordinates plus an opaque payload (`data`), as in
`Geometry.js`'s `Point` (payload type kept abstract as `α`). -/
structure Point (α : Type) where
  x : ℚ
  y : ℚ
  data : α
deriving DecidableEq

/-- An axis-aligned rectangle in center / half-extent form, as in
`Geometry.js`'s `Rectangle` and in every `boundary` record field. -/
structure Rectangle where
  x : ℚ
  y : ℚ
  w : ℚ
  h : ℚ
deriving DecidableEq

/-- Modelled from the spec: `Geometry.js` is not under `src/`, so the
containment predicate is taken from spec §3:
`contains(p) ⇔ |p.x - centerX| ≤ halfWidth ∧ |p.y - centerY| ≤ halfHeight`
(closed boundary — points exactly on an edge are contained). -/
def Rectangle.containsXY (r : Rectangle) (px py : ℚ) : Bool :=
  decide (|px - r.x| ≤ r.w) && decide (|py - r.y| ≤ r.h)

/-- `Rectangle.contains` applied to a stored point (only the coordinates are
inspected, as in the source). -/
def Rectangle.contains {α : Type} (r : Rectangle) (p : Point α) : Bool :=
  r.containsXY p.x p.y

/-- Modelled from the spec: §3 `intersects(other)` ⇔ the two boxes'
projections overlap on both axes (closed-interval overlap test). -/
def Rectangle.intersects (r o : Rectangle) : Bool :=
  decide (r.x - r.w ≤ o.x + o.w) && decide (o.x - o.w ≤ r.x + r.w) &&
  decide (r.y - r.h ≤ o.y + o.h) && decide (o.y - o.h ≤ r.y + r.h)

/-- The `children` map of a divided node: one child id per quadrant tag,
in the source's fixed order `ne, nw, se, sw`. -/
structure Children where
  ne : Nat
  nw : Nat
  se : Nat
  sw : Nat
deriving DecidableEq

/-- A persisted node record (`node:<id>` value): `children` is present iff
the node has been subdivided (in the JSON record the field is simply absent
before that, modelled by `Option`). -/
structure Node (α : Type) where
  id : Nat
  boundary : Rectangle
  points : List (Point α)
  divided : Bool
  children : Option Children
deriving DecidableEq

/-- The durable store: the `meta:root` record, the `node:<id>` records as an
association list (a later `put` shadows an earlier one, newest first), and
the fresh-id counter standing in for the uuid collaborator. -/
structure Store (α : Type) where
  metaRoot : Option Nat
  nodes : List (Nat × Node α)
  nextId : Nat
deriving DecidableEq

/-- A store with no records at all (a fresh database path). -/
def Store.empty {α : Type} : Store α := ⟨none, [], 0⟩

/-- `db.get('node:<i>')`: `none` models the store's distinct key-absent
failure (a thrown error in the source). -/
def Store.getNode {α : Type} (s : Store α) (i : Nat) : Option (Node α) :=
  match s.nodes.find? (fun e => decide (e.1 = i)) with
  | some e => some e.2
  | none => none

/-- `db.put('node:<i>', n)`. -/
def Store.putNode {α : Type} (s : Store α) (i : Nat) (n : Node α) : Store α :=
  { s with nodes := (i, n) :: s.nodes }

/-- The `DiskQuadTree` instance state: store handle, persisted root id and
the capacity supplied to the constructor. -/
structure DiskQuadTree (α : Type) where
  db : Store α
  rootId : Nat
  capacity : Nat
deriving DecidableEq

/-- `DiskQuadTree.init`: read `meta:root`; when absent, synthesize a fresh
root id, persist the metadata record and an empty undivided root node with
the caller-supplied boundary. -/
def DiskQuadTree.init {α : Type} (s : Store α) (boundary : Rectangle)
    (capacity : Nat) : DiskQuadTree α :=
  match s.metaRoot with
  | some rootId => ⟨s, rootId, capacity⟩
  | none =>
    let rootId := s.nextId
    let s1 : Store α := { s with nextId := s.nextId + 1, metaRoot := some rootId }
    let s2 := s1.putNode rootId ⟨rootId, boundary, [], false, none⟩
    ⟨s2, rootId, capacity⟩

/-- A child quadrant boundary: parent center offset by `dx * w / 2` and
`dy * h / 2`, half the parent's half-extents. -/
def childBoundary (b : Rectangle) (dx dy : ℚ) : Rectangle :=
  ⟨b.x + dx * b.w / 2, b.y + dy * b.h / 2, b.w / 2, b.h / 2⟩

/-- `_subdivide`, split into the sequence of `db.put` calls it performs (in
source order: the four children `ne, nw, se, sw`, then the parent) and the
in-memory mutation of the parent record.  Per the source, the sign of the
x-offset is `+1` for tags containing `e` and `-1` for `w`; the y-offset is
`+1` for tags containing `s` and `-1` for `n`.  `fresh` is the id the uuid
collaborator hands to the first child; the four ids are distinct. -/
def subdividePuts {α : Type} (fresh : Nat) (node : Node α) :
    List (Nat × Node α) × Node α :=
  let bne : Node α := ⟨fresh, childBoundary node.boundary 1 (-1), [], false, none⟩
  let bnw : Node α := ⟨fresh + 1, childBoundary node.boundary (-1) (-1), [], false, none⟩
  let bse : Node α := ⟨fresh + 2, childBoundary node.boundary 1 1, [], false, none⟩
  let bsw : Node α := ⟨fresh + 3, childBoundary node.boundary (-1) 1, [], false, none⟩
  let parent : Node α :=
    { node with divided := true,
                children := some ⟨fresh, fresh + 1, fresh + 2, fresh + 3⟩ }
  ([(fresh, bne), (fresh + 1, bnw), (fresh + 2, bse), (fresh + 3, bsw),
    (node.id, parent)], parent)

/-- Apply a sequence of `put` calls to the store, left to right (so the head
of the list is persisted first). -/
def applyPuts {α : Type} (s : Store α) : List (Nat × Node α) → Store α
  | [] => s
  | e :: rest => applyPuts (s.putNode e.1 e.2) rest

/-- `_subdivide` as a store transformer: perform the puts of
`subdividePuts` in order and return the mutated in-memory parent record. -/
def subdivide {α : Type} (s : Store α) (node : Node α) : Store α × Node α :=
  let pr := subdividePuts s.nextId node
  (applyPuts { s with nextId := s.nextId + 4 } pr.1, pr.2)

/-- `_insert`: fetch the node; reject (without mutation) a point outside the
boundary; append and persist on an undivided node with room; otherwise
subdivide if needed and try the children in the source's fixed order
`ne, nw, se, sw`, stopping at the first that accepts (the loop is unrolled
here because the order is fixed in the source).  `none` models a thrown
store error or divergence (fuel exhaustion); a divided record without a
`children` map makes the source dereference `undefined`, a thrown error,
also `none`. -/
def insertAux {α : Type} (cap : Nat) : Nat → Store α → Nat → Point α →
    Option (Store α × Bool)
  | 0, _, _, _ => none
  | fuel + 1, s, nodeId, point =>
    match s.getNode nodeId with
    | none => none
    | some node =>
      if node.boundary.contains point = false then some (s, false)
      else if node.points.length < cap && !node.divided then
        some (s.putNode nodeId { node with points := node.points ++ [point] }, true)
      else
        let sn := if node.divided then (s, node) else subdivide s node
        match sn.2.children with
        | none => none
        | some c =>
          match insertAux cap fuel sn.1 c.ne point with
          | none => none
          | some (s1, true) => some (s1, true)
          | some (s1, false) =>
            match insertAux cap fuel s1 c.nw point with
            | none => none
            | some (s2, true) => some (s2, true)
            | some (s2, false) =>
              match insertAux cap fuel s2 c.se point with
              | none => none
              | some (s3, true) => some (s3, true)
              | some (s3, false) => insertAux cap fuel s3 c.sw point

/-- The child-try loop of `_insert` over an explicit child list: recurse
into each child in order and stop at the first that accepts the point;
report rejection when all reject.  `insertAux`'s unrolled chain equals this
loop on the four-element list (proved below). -/
def insertKids {α : Type} (cap fuel : Nat) (s : Store α) (kids : List Nat)
    (point : Point α) : Option (Store α × Bool) :=
  match kids with
  | [] => some (s, false)
  | cid :: rest =>
    match insertAux cap fuel s cid point with
    | none => none
    | some (s1, true) => some (s1, true)
    | some (s1, false) => insertKids cap fuel s1 rest point

/-- Top-level `insert`: build the point and run `_insert` from the root.
The source discards `_insert`'s boolean — a rejected point is silently
dropped — so the call reports success (`some`) whether or not the point was
accepted. -/
def DiskQuadTree.insert {α : Type} (F : Nat) (t : DiskQuadTree α) (x y : ℚ)
    (data : α) : Option (DiskQuadTree α) :=
  match insertAux t.capacity F t.db t.rootId ⟨x, y, data⟩ with
  | none => none
  | some (s, _) => some ⟨s, t.rootId, t.capacity⟩

/-- The query rectangle `range` builds from its corner arguments. -/
def queryRect (minX minY maxX maxY : ℚ) : Rectangle :=
  ⟨(minX + maxX) / 2, (minY + maxY) / 2, (maxX - minX) / 2, (maxY - minY) / 2⟩

/-- `_query`: skip a node whose boundary does not intersect the query
rectangle; otherwise append this node's matching points (in stored order) to
the accumulator and, if divided, recurse into the four children in the
source's fixed order (unrolled, threading the accumulating list). -/
def queryAux {α : Type} : Nat → Store α → Nat → Rectangle → List (Point α) →
    Option (List (Point α))
  | 0, _, _, _, _ => none
  | fuel + 1, s, nodeId, range, found =>
    match s.getNode nodeId with
    | none => none
    | some node =>
      if node.boundary.intersects range = false then some found
      else
        let found1 := found ++ node.points.filter (fun p => range.contains p)
        if node.divided then
          match node.children with
          | none => none
          | some c =>
            match queryAux fuel s c.ne range found1 with
            | none => none
            | some f1 =>
              match queryAux fuel s c.nw range f1 with
              | none => none
              | some f2 =>
                match queryAux fuel s c.se range f2 with
                | none => none
                | some f3 => queryAux fuel s c.sw range f3
        else some found1

/-- The child loop of `_query` over an explicit child list, threading the
accumulating result list; equal to `queryAux`'s unrolled chain on the
four-element list (proved below). -/
def queryKids {α : Type} (fuel : Nat) (s : Store α) (kids : List Nat)
    (range : Rectangle) (found : List (Point α)) : Option (List (Point α)) :=
  match kids with
  | [] => some found
  | cid :: rest =>
    match queryAux fuel s cid range found with
    | none => none
    | some f1 => queryKids fuel s rest range f1

/-- Top-level `range`: convert the corner rectangle to center / half-extent
form and query from the root with an empty accumulator.  The operation
performs no store writes. -/
def DiskQuadTree.range {α : Type} (F : Nat) (t : DiskQuadTree α)
    (minX minY maxX maxY : ℚ) : Option (List (Point α)) :=
  queryAux F t.db t.rootId (queryRect minX minY maxX maxY) []

/-- Squared Euclidean distance of a stored point to the query location, the
sort key of `nearest`'s comparator `da - db`. -/
def sqDist {α : Type} (x y : ℚ) (p : Point α) : ℚ :=
  (p.x - x) ^ 2 + (p.y - y) ^ 2

/-- Insert into a list already sorted by distance, before the first element
at equal-or-larger distance. -/
def ordInsert {α : Type} (x y : ℚ) (a : Point α) :
    List (Point α) → List (Point α)
  | [] => [a]
  | b :: l =>
    if sqDist x y a ≤ sqDist x y b then a :: b :: l else b :: ordInsert x y a l

/-- The stable ascending sort of `nearest`'s candidate list.
`Array.prototype.sort` is stable and its comparator `da - db` orders by
`sqDist` ascending with ties equal; the stable sort by a total preorder key
is unique, and this insertion sort (which keeps an earlier element before
later elements at equal distance) computes it. -/
def sortByDist {α : Type} (x y : ℚ) : List (Point α) → List (Point α)
  | [] => []
  | a :: l => ordInsert x y a (sortByDist x y l)

/-- `nearest`: range-query the square of half-side `radius` around the
target, sort by squared distance, return the first candidate
(`candidates[0] || null`; points are objects, always truthy). -/
def DiskQuadTree.nearest {α : Type} (F : Nat) (t : DiskQuadTree α)
    (x y radius : ℚ) : Option (Option (Point α)) :=
  match t.range F (x - radius) (y - radius) (x + radius) (y + radius) with
  | none => none
  | some cs => some ((sortByDist x y cs).head?)

/-- `nearest` at the source's default radius of 100. -/
def DiskQuadTree.nearestDefault {α : Type} (F : Nat) (t : DiskQuadTree α)
    (x y : ℚ) : Option (Option (Point α)) :=
  t.nearest F x y 100

/-- `_findPoint` (`src/unnamed/part_000`): fetch the node, answer null
(`some none`) outside its boundary, return the first stored point with
exactly the given coordinates, otherwise search the children in the
source's fixed order (unrolled) with first-hit early exit. -/
def findPointAux {α : Type} : Nat → Store α → Nat → ℚ → ℚ →
    Option (Option (Point α))
  | 0, _, _, _, _ => none
  | fuel + 1, s, nodeId, x, y =>
    match s.getNode nodeId with
    | none => none
    | some node =>
      if node.boundary.containsXY x y = false then some none
      else
        match node.points.find? (fun p => decide (p.x = x) && decide (p.y = y)) with
        | some p => some (some p)
        | none =>
          if node.divided then
            match node.children with
            | none => none
            | some c =>
              match findPointAux fuel s c.ne x y with
              | none => none
              | some (some p) => some (some p)
              | some none =>
                match findPointAux fuel s c.nw x y with
                | none => none
                | some (some p) => some (some p)
                | some none =>
                  match findPointAux fuel s c.se x y with
                  | none => none
                  | some (some p) => some (some p)
                  | some none => findPointAux fuel s c.sw x y
          else some none

/-- The child loop of `_findPoint` over an explicit child list; equal to
`findPointAux`'s unrolled chain on the four-element list (proved below). -/
def findPointKids {α : Type} (fuel : Nat) (s : Store α) (kids : List Nat)
    (x y : ℚ) : Option (Option (Point α)) :=
  match kids with
  | [] => some none
  | cid :: rest =>
    match findPointAux fuel s cid x y with
    | none => none
    | some (some p) => some (some p)
    | some none => findPointKids fuel s rest x y

/-- `_findNodeIdRecursive` (`src/unnamed/part_000`): the recursive call
passes `node.children[dir]` — a child **id** string — where a node object is
expected, so the callee reads `boundary` off a string and gets undefined
coordinates; the containment test (spec §3's closed inequality test, false
on undefined/NaN inputs) fails and every such recursive call returns null.
The divided branch therefore never finds anything and the whole search can
only succeed on the node it is handed directly. -/
def findNodeIdRecursive {α : Type} (node : Node α) (x y : ℚ) : Option Nat :=
  if node.boundary.containsXY x y = false then none
  else if node.points.any (fun p => decide (p.x = x) && decide (p.y = y)) then
    some node.id
  else none

/-- `_findNodeId`: fetch the root record and run the recursive search on it.
A store miss on the root is a thrown error (`none`). -/
def findNodeId {α : Type} (s : Store α) (rootId : Nat) (x y : ℚ) :
    Option (Option Nat) :=
  match s.getNode rootId with
  | none => none
  | some node => some (findNodeIdRecursive node x y)

/-- Replace the payload of the point at position `i` (the source's
`node.points[pointIndex].data = newJsonData`). -/
def setDataAt {α : Type} (i : Nat) (d : α) : List (Point α) → List (Point α)
  | [] => []
  | p :: l =>
    match i with
    | 0 => { p with data := d } :: l
    | j + 1 => p :: setDataAt j d l

/-- `_updateNode`: locate the owning node id, fetch it, and persist it with
the matched point's payload replaced.  When `_findNodeId` yields null the
source fetches key `node:null`, which is absent, so the store get throws
(`none`); when `findIndex` misses, the put is skipped without error. -/
def updateNode {α : Type} (s : Store α) (rootId : Nat) (x y : ℚ) (newData : α) :
    Option (Store α) :=
  match findNodeId s rootId x y with
  | none => none
  | some none => none
  | some (some nodeId) =>
    match s.getNode nodeId with
    | none => none
    | some node =>
      match node.points.findIdx? (fun p => decide (p.x = x) && decide (p.y = y)) with
      | some i => some (s.putNode nodeId { node with points := setDataAt i newData node.points })
      | none => some s

/-- The outcome of `update`: success with the resulting store (the source
returns `true`), the thrown `Point not found` error with the store as it
stood (no write precedes the throw), or a propagated store error /
divergence. -/
inductive UpdRes (α : Type) where
  | ok (s : Store α)
  | notFound (s : Store α)
  | err
deriving DecidableEq

/-- `update` (`src/unnamed/part_000`): find the point by exact coordinates;
throw `Point not found` when absent; otherwise run `_updateNode` at the
found point's coordinates (equal to the arguments, by the exact match) and
report success.  The local mutation of the fetched point copy has no
persistent effect and is not modelled. -/
def DiskQuadTree.update {α : Type} (F : Nat) (t : DiskQuadTree α) (x y : ℚ)
    (newData : α) : UpdRes α :=
  match findPointAux F t.db t.rootId x y with
  | none => .err
  | some none => .notFound t.db
  | some (some _) =>
    match updateNode t.db t.rootId x y newData with
    | none => .err
    | some s => .ok s

/-- A sequence of top-level `insert` calls, as issued by a caller. -/
def runInserts {α : Type} (F : Nat) :
    DiskQuadTree α → List (ℚ × ℚ × α) → Option (DiskQuadTree α)
  | t, [] => some t
  | t, q :: rest =>
    match t.insert F q.1 q.2.1 q.2.2 with
    | none => none
    | some t1 => runInserts F t1 rest

/-! ## Store lemmas -/

theorem Store.getNode_putNode {α : Type} (s : Store α) (i j : Nat) (n : Node α) :
    (s.putNode i n).getNode j = if j = i then some n else s.getNode j := by
  by_cases h : i = j
  · subst h
    simp [Store.getNode, Store.putNode]
  · simp [Store.getNode, Store.putNode, List.find?_cons, h, Ne.symm h]

theorem Store.getNode_mem {α : Type} {s : Store α} {i : Nat} {n : Node α}
    (h : s.getNode i = some n) : (i, n) ∈ s.nodes := by
  unfold Store.getNode at h
  cases hf : s.nodes.find? (fun e => decide (e.1 = i)) with
  | none => simp [hf] at h
  | some e =>
    have hmem := List.mem_of_find?_eq_some hf
    have hpred := List.find?_some hf
    simp only [decide_eq_true_eq] at hpred
    simp [hf] at h
    cases e
    simp_all

/-! ## Geometry lemmas -/

theorem intersects_of_mem {b r : Rectangle} {px py : ℚ}
    (hb : b.containsXY px py = true) (hr : r.containsXY px py = true) :
    b.intersects r = true := by
  simp only [Rectangle.containsXY, Rectangle.intersects, Bool.and_eq_true,
    decide_eq_true_eq, abs_le] at hb hr ⊢
  obtain ⟨⟨hb1, hb2⟩, hb3, hb4⟩ := hb
  obtain ⟨⟨hr1, hr2⟩, hr3, hr4⟩ := hr
  refine ⟨⟨⟨?_, ?_⟩, ?_⟩, ?_⟩ <;> linarith

theorem contains_cover (b : Rectangle) (px py : ℚ) :
    b.containsXY px py = true ↔
      ((childBoundary b 1 (-1)).containsXY px py = true ∨
       (childBoundary b (-1) (-1)).containsXY px py = true ∨
       (childBoundary b 1 1).containsXY px py = true ∨
       (childBoundary b (-1) 1).containsXY px py = true) := by
  simp only [Rectangle.containsXY, childBoundary, Bool.and_eq_true,
    decide_eq_true_eq, abs_le]
  constructor
  · rintro ⟨⟨h1, h2⟩, h3, h4⟩
    rcases le_total px b.x with hx | hx <;> rcases le_total py b.y with hy | hy
    · exact Or.inr (Or.inl ⟨⟨by linarith, by linarith⟩, by linarith, by linarith⟩)
    · exact Or.inr (Or.inr (Or.inr ⟨⟨by linarith, by linarith⟩, by linarith, by linarith⟩))
    · exact Or.inl ⟨⟨by linarith, by linarith⟩, by linarith, by linarith⟩
    · exact Or.inr (Or.inr (Or.inl ⟨⟨by linarith, by linarith⟩, by linarith, by linarith⟩))
  · rintro (⟨⟨h1, h2⟩, h3, h4⟩ | ⟨⟨h1, h2⟩, h3, h4⟩ | ⟨⟨h1, h2⟩, h3, h4⟩ |
      ⟨⟨h1, h2⟩, h3, h4⟩) <;> refine ⟨⟨?_, ?_⟩, ?_, ?_⟩ <;> linarith

theorem containsXY_false_of_neg_w {r : Rectangle} (h : r.w < 0) (px py : ℚ) :
    r.containsXY px py = false := by
  have hc : ¬ |px - r.x| ≤ r.w := by
    intro hc
    have := abs_nonneg (px - r.x)
    linarith
  simp [Rectangle.containsXY, hc]

theorem containsXY_false_of_neg_h {r : Rectangle} (h : r.h < 0) (px py : ℚ) :
    r.containsXY px py = false := by
  have hc : ¬ |py - r.y| ≤ r.h := by
    intro hc
    have := abs_nonneg (py - r.y)
    linarith
  simp [Rectangle.containsXY, hc]

/-! ## Structural invariants of reachable store states -/

/-- Every persisted node id is below the fresh-id counter (the uuid
collaborator never re-issues an id). -/
def IdsBelow {α : Type} (s : Store α) : Prop :=
  ∀ i n, s.getNode i = some n → i < s.nextId

/-- Every record's stored `id` field agrees with its key. -/
def GoodIds {α : Type} (s : Store α) : Prop :=
  ∀ i n, s.getNode i = some n → n.id = i

/-- The spec §3 node-state invariant: an undivided node has no `children`
field and at most `capacity` points. -/
def NodeOK {α : Type} (cap : Nat) (n : Node α) : Prop :=
  n.divided = false → n.children = none ∧ n.points.length ≤ cap

/-- `NodeOK` for every record in the store. -/
def StoreOK {α : Type} (cap : Nat) (s : Store α) : Prop :=
  ∀ i n, s.getNode i = some n → NodeOK cap n

/-- Each persisted `children` map points at persisted records carrying the
four quadrant boundaries of the parent. -/
def ChildGeom {α : Type} (s : Store α) : Prop :=
  ∀ i n c, s.getNode i = some n → n.children = some c →
    (∃ m, s.getNode c.ne = some m ∧ m.boundary = childBoundary n.boundary 1 (-1)) ∧
    (∃ m, s.getNode c.nw = some m ∧ m.boundary = childBoundary n.boundary (-1) (-1)) ∧
    (∃ m, s.getNode c.se = some m ∧ m.boundary = childBoundary n.boundary 1 1) ∧
    (∃ m, s.getNode c.sw = some m ∧ m.boundary = childBoundary n.boundary (-1) 1)

/-- The bundle of structural invariants maintained by every operation. -/
def Inv {α : Type} (cap : Nat) (s : Store α) : Prop :=
  IdsBelow s ∧ GoodIds s ∧ StoreOK cap s ∧ ChildGeom s

/-- How one mutation step may change the records other code relies on:
every present record stays present with the same boundary, non-shrinking
points, and divided/children intact once divided. -/
def Preserve {α : Type} (s s' : Store α) : Prop :=
  ∀ i n, s.getNode i = some n →
    ∃ n', s'.getNode i = some n' ∧ n'.boundary = n.boundary ∧
      (∀ q, q ∈ n.points → q ∈ n'.points) ∧
      (n.divided = true → n'.divided = true ∧ n'.children = n.children)

theorem Preserve.rfl {α : Type} (s : Store α) : Preserve s s := by
  intro i n h
  exact ⟨n, h, Eq.refl _, fun q hq => hq, fun hd => ⟨hd, Eq.refl _⟩⟩

theorem Preserve.trans {α : Type} {s1 s2 s3 : Store α}
    (h12 : Preserve s1 s2) (h23 : Preserve s2 s3) : Preserve s1 s3 := by
  intro i n h
  obtain ⟨n2, hget2, hb2, hp2, hd2⟩ := h12 i n h
  obtain ⟨n3, hget3, hb3, hp3, hd3⟩ := h23 i n2 hget2
  refine ⟨n3, hget3, hb3.trans hb2, fun q hq => hp3 q (hp2 q hq), fun hd => ?_⟩
  obtain ⟨hdd, hcc⟩ := hd2 hd
  obtain ⟨hdd3, hcc3⟩ := hd3 hdd
  exact ⟨hdd3, hcc3.trans hcc⟩

/-- A stored point reachable from node `i` through a chain of child links in
which every node's boundary contains the point — exactly the situation the
insert descent leaves behind, and the one the query descent cannot prune. -/
inductive PathTo {α : Type} (s : Store α) : Nat → Point α → Prop where
  | here (i : Nat) (n : Node α) (p : Point α) : s.getNode i = some n →
      n.boundary.contains p = true → p ∈ n.points → PathTo s i p
  | step (i : Nat) (n : Node α) (p : Point α) (c : Children) (k : Nat) :
      s.getNode i = some n → n.boundary.contains p = true →
      n.divided = true → n.children = some c →
      k ∈ [c.ne, c.nw, c.se, c.sw] → PathTo s k p → PathTo s i p

theorem PathTo.mono {α : Type} {s s' : Store α} {i : Nat} {p : Point α}
    (hp : Preserve s s') (h : PathTo s i p) : PathTo s' i p := by
  induction h with
  | here i n p hget hc hmem =>
    obtain ⟨n', hget', hb, hpts, _⟩ := hp i n hget
    exact PathTo.here i n' p hget' (by rwa [Rectangle.contains, hb]) (hpts p hmem)
  | step i n p c k hget hc hdiv hch hk _ ih =>
    obtain ⟨n', hget', hb, _, hd⟩ := hp i n hget
    obtain ⟨hdiv', hch'⟩ := hd hdiv
    exact PathTo.step i n' p c k hget' (by rwa [Rectangle.contains, hb]) hdiv'
      (hch'.trans hch) hk ih

/-! ## Subdivision lemmas -/

theorem getNode_setNextId {α : Type} (s : Store α) (m j : Nat) :
    ({ s with nextId := m } : Store α).getNode j = s.getNode j := rfl

/-- The parent record `_subdivide` writes back. -/
theorem subdivide_parent {α : Type} (s : Store α) (node : Node α) :
    (subdivide s node).2 =
      { node with divided := true,
                  children := some ⟨s.nextId, s.nextId + 1, s.nextId + 2, s.nextId + 3⟩ } := rfl

theorem subdivide_nextId {α : Type} (s : Store α) (node : Node α) :
    (subdivide s node).1.nextId = s.nextId + 4 := rfl

theorem subdivide_metaRoot {α : Type} (s : Store α) (node : Node α) :
    (subdivide s node).1.metaRoot = s.metaRoot := rfl

theorem getNode_subdivide {α : Type} (s : Store α) (node : Node α) (j : Nat) :
    (subdivide s node).1.getNode j =
      if j = node.id then
        some { node with divided := true,
                         children := some ⟨s.nextId, s.nextId + 1, s.nextId + 2, s.nextId + 3⟩ }
      else if j = s.nextId + 3 then
        some ⟨s.nextId + 3, childBoundary node.boundary (-1) 1, [], false, none⟩
      else if j = s.nextId + 2 then
        some ⟨s.nextId + 2, childBoundary node.boundary 1 1, [], false, none⟩
      else if j = s.nextId + 1 then
        some ⟨s.nextId + 1, childBoundary node.boundary (-1) (-1), [], false, none⟩
      else if j = s.nextId then
        some ⟨s.nextId, childBoundary node.boundary 1 (-1), [], false, none⟩
      else s.getNode j := by
  simp only [subdivide, subdividePuts, applyPuts, Store.getNode_putNode, getNode_setNextId]

/-- Everything an insert step needs to know about `_subdivide`'s effect on a
well-formed store: invariants survive, existing records are preserved, the
parent is now divided with the four fresh children persisted, and no point
appears that was not already stored. -/
theorem subdivide_step {α : Type} (cap : Nat) (s : Store α) (node : Node α) (nid : Nat)
    (hget : s.getNode nid = some node) (hid : node.id = nid)
    (hdiv : node.divided = false) (hinv : Inv cap s) :
    Inv cap (subdivide s node).1 ∧ Preserve s (subdivide s node).1 ∧
    (subdivide s node).1.getNode nid =
      some { node with divided := true,
                       children := some ⟨s.nextId, s.nextId + 1, s.nextId + 2, s.nextId + 3⟩ } ∧
    (subdivide s node).1.getNode s.nextId =
      some ⟨s.nextId, childBoundary node.boundary 1 (-1), [], false, none⟩ ∧
    (subdivide s node).1.getNode (s.nextId + 1) =
      some ⟨s.nextId + 1, childBoundary node.boundary (-1) (-1), [], false, none⟩ ∧
    (subdivide s node).1.getNode (s.nextId + 2) =
      some ⟨s.nextId + 2, childBoundary node.boundary 1 1, [], false, none⟩ ∧
    (subdivide s node).1.getNode (s.nextId + 3) =
      some ⟨s.nextId + 3, childBoundary node.boundary (-1) 1, [], false, none⟩ ∧
    (∀ i n q, (subdivide s node).1.getNode i = some n → q ∈ n.points →
      ∃ m, s.getNode i = some m ∧ q ∈ m.points) := by
  obtain ⟨hids, hgood, hok, hgeom⟩ := hinv
  have hnid : nid < s.nextId := hids nid node hget
  have hgetid : s.getNode node.id = some node := by rw [hid]; exact hget
  have hpre : Preserve s (subdivide s node).1 := by
    intro i n h
    have hi : i < s.nextId := hids i n h
    rw [getNode_subdivide]
    by_cases he : i = node.id
    · have hn : n = node := by
        rw [he] at h
        rw [h] at hgetid
        exact Option.some.inj hgetid
      subst hn
      rw [if_pos he]
      refine ⟨_, Eq.refl _, Eq.refl _, fun q hq => hq, fun hd => ?_⟩
      rw [hdiv] at hd
      cases hd
    · rw [if_neg he, if_neg (by omega), if_neg (by omega), if_neg (by omega),
        if_neg (by omega)]
      exact ⟨n, h, Eq.refl _, fun q hq => hq, fun hd => ⟨hd, Eq.refl _⟩⟩
  have hg0 : (subdivide s node).1.getNode nid =
      some { node with divided := true,
                       children := some ⟨s.nextId, s.nextId + 1, s.nextId + 2, s.nextId + 3⟩ } := by
    rw [getNode_subdivide, if_pos hid.symm]
  have hgne : (subdivide s node).1.getNode s.nextId =
      some ⟨s.nextId, childBoundary node.boundary 1 (-1), [], false, none⟩ := by
    rw [getNode_subdivide, if_neg (by omega), if_neg (by omega), if_neg (by omega),
      if_neg (by omega), if_pos (Eq.refl _)]
  have hgnw : (subdivide s node).1.getNode (s.nextId + 1) =
      some ⟨s.nextId + 1, childBoundary node.boundary (-1) (-1), [], false, none⟩ := by
    rw [getNode_subdivide, if_neg (by omega), if_neg (by omega), if_neg (by omega),
      if_pos (Eq.refl _)]
  have hgse : (subdivide s node).1.getNode (s.nextId + 2) =
      some ⟨s.nextId + 2, childBoundary node.boundary 1 1, [], false, none⟩ := by
    rw [getNode_subdivide, if_neg (by omega), if_neg (by omega), if_pos (Eq.refl _)]
  have hgsw : (subdivide s node).1.getNode (s.nextId + 3) =
      some ⟨s.nextId + 3, childBoundary node.boundary (-1) 1, [], false, none⟩ := by
    rw [getNode_subdivide, if_neg (by omega), if_pos (Eq.refl _)]
  refine ⟨⟨?_, ?_, ?_, ?_⟩, hpre, hg0, hgne, hgnw, hgse, hgsw, ?_⟩
  · -- IdsBelow
    intro i n h
    rw [getNode_subdivide] at h
    rw [subdivide_nextId]
    by_cases e0 : i = node.id
    · omega
    · rw [if_neg e0] at h
      by_cases e3 : i = s.nextId + 3
      · omega
      · rw [if_neg e3] at h
        by_cases e2 : i = s.nextId + 2
        · omega
        · rw [if_neg e2] at h
          by_cases e1 : i = s.nextId + 1
          · omega
          · rw [if_neg e1] at h
            by_cases e4 : i = s.nextId
            · omega
            · rw [if_neg e4] at h
              have := hids i n h
              omega
  · -- GoodIds
    intro i n h
    rw [getNode_subdivide] at h
    by_cases e0 : i = node.id
    · rw [if_pos e0] at h
      cases Option.some.inj h
      exact hid.trans (hid.symm.trans e0.symm)
    · rw [if_neg e0] at h
      by_cases e3 : i = s.nextId + 3
      · rw [if_pos e3] at h
        cases Option.some.inj h
        exact e3.symm
      · rw [if_neg e3] at h
        by_cases e2 : i = s.nextId + 2
        · rw [if_pos e2] at h
          cases Option.some.inj h
          exact e2.symm
        · rw [if_neg e2] at h
          by_cases e1 : i = s.nextId + 1
          · rw [if_pos e1] at h
            cases Option.some.inj h
            exact e1.symm
          · rw [if_neg e1] at h
            by_cases e4 : i = s.nextId
            · rw [if_pos e4] at h
              cases Option.some.inj h
              exact e4.symm
            · rw [if_neg e4] at h
              exact hgood i n h
  · -- StoreOK
    intro i n h
    rw [getNode_subdivide] at h
    by_cases e0 : i = node.id
    · rw [if_pos e0] at h
      cases Option.some.inj h
      intro hfalse
      simp at hfalse
    · rw [if_neg e0] at h
      by_cases e3 : i = s.nextId + 3
      · rw [if_pos e3] at h
        cases Option.some.inj h
        exact fun _ => ⟨Eq.refl _, by simp⟩
      · rw [if_neg e3] at h
        by_cases e2 : i = s.nextId + 2
        · rw [if_pos e2] at h
          cases Option.some.inj h
          exact fun _ => ⟨Eq.refl _, by simp⟩
        · rw [if_neg e2] at h
          by_cases e1 : i = s.nextId + 1
          · rw [if_pos e1] at h
            cases Option.some.inj h
            exact fun _ => ⟨Eq.refl _, by simp⟩
          · rw [if_neg e1] at h
            by_cases e4 : i = s.nextId
            · rw [if_pos e4] at h
              cases Option.some.inj h
              exact fun _ => ⟨Eq.refl _, by simp⟩
            · rw [if_neg e4] at h
              exact hok i n h
  · -- ChildGeom
    intro i n c h hch
    rw [getNode_subdivide] at h
    by_cases e0 : i = node.id
    · rw [if_pos e0] at h
      cases Option.some.inj h
      cases Option.some.inj hch
      exact ⟨⟨_, hgne, Eq.refl _⟩, ⟨_, hgnw, Eq.refl _⟩, ⟨_, hgse, Eq.refl _⟩,
        ⟨_, hgsw, Eq.refl _⟩⟩
    · rw [if_neg e0] at h
      by_cases e3 : i = s.nextId + 3
      · rw [if_pos e3] at h
        cases Option.some.inj h
        cases hch
      · rw [if_neg e3] at h
        by_cases e2 : i = s.nextId + 2
        · rw [if_pos e2] at h
          cases Option.some.inj h
          cases hch
        · rw [if_neg e2] at h
          by_cases e1 : i = s.nextId + 1
          · rw [if_pos e1] at h
            cases Option.some.inj h
            cases hch
          · rw [if_neg e1] at h
            by_cases e4 : i = s.nextId
            · rw [if_pos e4] at h
              cases Option.some.inj h
              cases hch
            · rw [if_neg e4] at h
              obtain ⟨⟨m1, hm1, hb1⟩, ⟨m2, hm2, hb2⟩, ⟨m3, hm3, hb3⟩, ⟨m4, hm4, hb4⟩⟩ :=
                hgeom i n c h hch
              obtain ⟨m1p, hm1p, he1, -, -⟩ := hpre _ _ hm1
              obtain ⟨m2p, hm2p, he2, -, -⟩ := hpre _ _ hm2
              obtain ⟨m3p, hm3p, he3, -, -⟩ := hpre _ _ hm3
              obtain ⟨m4p, hm4p, he4, -, -⟩ := hpre _ _ hm4
              exact ⟨⟨m1p, hm1p, he1.trans hb1⟩, ⟨m2p, hm2p, he2.trans hb2⟩,
                ⟨m3p, hm3p, he3.trans hb3⟩, ⟨m4p, hm4p, he4.trans hb4⟩⟩
  · -- provenance: no new point appears
    intro i n q h hq
    rw [getNode_subdivide] at h
    by_cases e0 : i = node.id
    · rw [if_pos e0] at h
      cases Option.some.inj h
      refine ⟨node, ?_, hq⟩
      rw [e0]
      exact hgetid
    · rw [if_neg e0] at h
      by_cases e3 : i = s.nextId + 3
      · rw [if_pos e3] at h
        cases Option.some.inj h
        cases hq
      · rw [if_neg e3] at h
        by_cases e2 : i = s.nextId + 2
        · rw [if_pos e2] at h
          cases Option.some.inj h
          cases hq
        · rw [if_neg e2] at h
          by_cases e1 : i = s.nextId + 1
          · rw [if_pos e1] at h
            cases Option.some.inj h
            cases hq
          · rw [if_neg e1] at h
            by_cases e4 : i = s.nextId
            · rw [if_pos e4] at h
              cases Option.some.inj h
              cases hq
            · rw [if_neg e4] at h
              exact ⟨n, h, hq⟩

/-! ## The insert descent: invariant preservation, provenance, path creation -/

/-- What a single `_insert` call guarantees about the store it returns:
invariants survive, existing records are preserved, the metadata record is
untouched, and any stored point is either an old stored point or the point
being inserted. -/
def InsOK {α : Type} (cap : Nat) (p : Point α) (s s' : Store α) : Prop :=
  Inv cap s' ∧ Preserve s s' ∧ s'.metaRoot = s.metaRoot ∧
  (∀ i n q, s'.getNode i = some n → q ∈ n.points →
    (∃ m, s.getNode i = some m ∧ q ∈ m.points) ∨ q = p)

theorem InsOK_refl {α : Type} (cap : Nat) (p : Point α) {s : Store α}
    (hinv : Inv cap s) : InsOK cap p s s :=
  ⟨hinv, Preserve.rfl s, Eq.refl _, fun i n q h hq => Or.inl ⟨n, h, hq⟩⟩

theorem InsOK_trans {α : Type} {cap : Nat} {p : Point α} {s1 s2 s3 : Store α}
    (h12 : InsOK cap p s1 s2) (h23 : InsOK cap p s2 s3) : InsOK cap p s1 s3 := by
  obtain ⟨-, hpre12, hm12, hprov12⟩ := h12
  obtain ⟨hinv3, hpre23, hm23, hprov23⟩ := h23
  refine ⟨hinv3, hpre12.trans hpre23, hm23.trans hm12, ?_⟩
  intro i n q h hq
  rcases hprov23 i n q h hq with ⟨m, hm, hqm⟩ | hqp
  · exact hprov12 i m q hm hqm
  · exact Or.inr hqp

/-- The terminal-success branch of `_insert`: appending the point to an
undivided node with room preserves the invariants and establishes a path to
the point. -/
theorem append_step {α : Type} (cap : Nat) (s : Store α) (nid : Nat) (node : Node α)
    (p : Point α) (hget : s.getNode nid = some node) (hinv : Inv cap s)
    (hlen : node.points.length < cap) (hdiv : node.divided = false) :
    InsOK cap p s (s.putNode nid { node with points := node.points ++ [p] }) ∧
    (node.boundary.contains p = true →
      PathTo (s.putNode nid { node with points := node.points ++ [p] }) nid p) := by
  obtain ⟨hids, hgood, hok, hgeom⟩ := hinv
  have hchn : node.children = none := (hok nid node hget hdiv).1
  have hpre : Preserve s (s.putNode nid { node with points := node.points ++ [p] }) := by
    intro i n h
    rw [Store.getNode_putNode]
    by_cases he : i = nid
    · have hn : n = node := by
        rw [he] at h
        rw [h] at hget
        exact Option.some.inj hget
      subst hn
      rw [if_pos he]
      refine ⟨_, Eq.refl _, Eq.refl _, fun q hq => List.mem_append_left _ hq, fun hd => ?_⟩
      rw [hdiv] at hd
      cases hd
    · rw [if_neg he]
      exact ⟨n, h, Eq.refl _, fun q hq => hq, fun hd => ⟨hd, Eq.refl _⟩⟩
  refine ⟨⟨⟨?_, ?_, ?_, ?_⟩, hpre, Eq.refl _, ?_⟩, ?_⟩
  · -- IdsBelow
    intro i n h
    rw [Store.getNode_putNode] at h
    by_cases he : i = nid
    · rw [he]
      exact hids nid node hget
    · rw [if_neg he] at h
      exact hids i n h
  · -- GoodIds
    intro i n h
    rw [Store.getNode_putNode] at h
    by_cases he : i = nid
    · rw [if_pos he] at h
      cases Option.some.inj h
      rw [he]
      exact hgood nid node hget
    · rw [if_neg he] at h
      exact hgood i n h
  · -- StoreOK
    intro i n h
    rw [Store.getNode_putNode] at h
    by_cases he : i = nid
    · rw [if_pos he] at h
      cases Option.some.inj h
      intro hf
      refine ⟨hchn, ?_⟩
      simp only [List.length_append, List.length_singleton]
      omega
    · rw [if_neg he] at h
      exact hok i n h
  · -- ChildGeom
    intro i n c h hch
    rw [Store.getNode_putNode] at h
    by_cases he : i = nid
    · rw [if_pos he] at h
      cases Option.some.inj h
      rw [hchn] at hch
      cases hch
    · rw [if_neg he] at h
      obtain ⟨⟨m1, hm1, hb1⟩, ⟨m2, hm2, hb2⟩, ⟨m3, hm3, hb3⟩, ⟨m4, hm4, hb4⟩⟩ :=
        hgeom i n c h hch
      obtain ⟨m1p, hm1p, he1, -, -⟩ := hpre _ _ hm1
      obtain ⟨m2p, hm2p, he2, -, -⟩ := hpre _ _ hm2
      obtain ⟨m3p, hm3p, he3, -, -⟩ := hpre _ _ hm3
      obtain ⟨m4p, hm4p, he4, -, -⟩ := hpre _ _ hm4
      exact ⟨⟨m1p, hm1p, he1.trans hb1⟩, ⟨m2p, hm2p, he2.trans hb2⟩,
        ⟨m3p, hm3p, he3.trans hb3⟩, ⟨m4p, hm4p, he4.trans hb4⟩⟩
  · -- provenance
    intro i n q h hq
    rw [Store.getNode_putNode] at h
    by_cases he : i = nid
    · rw [if_pos he] at h
      cases Option.some.inj h
      rcases List.mem_append.mp hq with hql | hqr
      · refine Or.inl ⟨node, ?_, hql⟩
        rw [he]
        exact hget
      · exact Or.inr (List.mem_singleton.mp hqr)
    · rw [if_neg he] at h
      exact Or.inl ⟨n, h, hq⟩
  · -- the new path
    intro hc
    refine PathTo.here nid { node with points := node.points ++ [p] } p ?_ hc ?_
    · rw [Store.getNode_putNode, if_pos (Eq.refl nid)]
    · exact List.mem_append_right _ (List.mem_singleton.mpr (Eq.refl p))

/-- Induction statement for `insertAux` at a given fuel: invariants and
provenance, plus a path to the point on acceptance, an unchanged store on
rejection, and guaranteed acceptance when the node's boundary contains the
point. -/
def AuxStmt {α : Type} (cap : Nat) (p : Point α) (fuel : Nat) : Prop :=
  ∀ s nid s' acc, Inv cap s → insertAux cap fuel s nid p = some (s', acc) →
    InsOK cap p s s' ∧
    (acc = true → PathTo s' nid p) ∧
    (acc = false → s' = s) ∧
    (∀ n, s.getNode nid = some n → n.boundary.contains p = true → acc = true)

/-- Induction statement for `insertKids` (the child-try loop). -/
def KidsStmt {α : Type} (cap : Nat) (p : Point α) (fuel : Nat) : Prop :=
  ∀ s kids s' acc, Inv cap s → insertKids cap fuel s kids p = some (s', acc) →
    InsOK cap p s s' ∧
    (acc = true → ∃ k, k ∈ kids ∧ PathTo s' k p) ∧
    (acc = false → s' = s) ∧
    (acc = false → ∀ k n, k ∈ kids → s.getNode k = some n →
      n.boundary.contains p = false)

theorem kids_of_aux {α : Type} (cap : Nat) (p : Point α) (fuel : Nat)
    (hA : AuxStmt cap p fuel) : KidsStmt cap p fuel := by
  intro s kids
  induction kids generalizing s with
  | nil =>
    intro s' acc hinv h
    rw [insertKids] at h
    have h2 := Option.some.inj h
    obtain ⟨rfl, rfl⟩ : s' = s ∧ acc = false :=
      ⟨(congrArg Prod.fst h2).symm, (congrArg Prod.snd h2).symm⟩
    refine ⟨InsOK_refl cap p hinv, ?_, fun _ => Eq.refl _, ?_⟩
    · intro ht
      exact Bool.noConfusion ht
    · intro _ k n hk
      exact absurd hk (List.not_mem_nil k)
  | cons cid rest ih =>
    intro s' acc hinv h
    rw [insertKids] at h
    cases h1 : insertAux cap fuel s cid p with
    | none =>
      rw [h1] at h
      cases h
    | some r1 =>
      rw [h1] at h
      obtain ⟨s1, acc1⟩ := r1
      cases acc1 with
      | true =>
        have h2 := Option.some.inj h
        have he1 : s1 = s' := congrArg Prod.fst h2
        have he2 : true = acc := congrArg Prod.snd h2
        rw [← he1, ← he2]
        obtain ⟨hok, hpath, -, -⟩ := hA s cid s1 true hinv h1
        refine ⟨hok, ?_, ?_, ?_⟩
        · intro _
          exact ⟨cid, List.mem_cons_self cid rest, hpath (Eq.refl _)⟩
        · intro hf
          exact Bool.noConfusion hf
        · intro hf
          exact Bool.noConfusion hf
      | false =>
        obtain ⟨hok1, -, hfalse1, hacc1⟩ := hA s cid s1 false hinv h1
        have hs1 : s1 = s := hfalse1 (Eq.refl _)
        rw [hs1] at h
        obtain ⟨hok, hpath, hfalse, hrej⟩ := ih s s' acc hinv h
        refine ⟨hok, ?_, hfalse, ?_⟩
        · intro ht
          obtain ⟨k, hk, hp⟩ := hpath ht
          exact ⟨k, List.mem_cons_of_mem cid hk, hp⟩
        · intro hf k n hk hgetk
          rcases List.mem_cons.mp hk with rfl | hk2
          · cases hcb : n.boundary.contains p with
            | false => exact Eq.refl _
            | true => exact absurd (hacc1 n hgetk hcb) (by decide)
          · exact hrej hf k n hk2 hgetk

/-! Branch-shape lemmas for `_insert`: one per control path of the source. -/

/-- The unrolled four-child chain of `_insert` equals the child loop on the
four-element list. -/
theorem insertKids4 {α : Type} (cap fuel : Nat) (s0 : Store α) (a b c d : Nat)
    (p : Point α) :
    (match insertAux cap fuel s0 a p with
     | none => none
     | some (s1, true) => some (s1, true)
     | some (s1, false) =>
       match insertAux cap fuel s1 b p with
       | none => none
       | some (s2, true) => some (s2, true)
       | some (s2, false) =>
         match insertAux cap fuel s2 c p with
         | none => none
         | some (s3, true) => some (s3, true)
         | some (s3, false) => insertAux cap fuel s3 d p) =
    insertKids cap fuel s0 [a, b, c, d] p := by
  cases h1 : insertAux cap fuel s0 a p with
  | none => simp [insertKids, h1]
  | some r1 =>
    obtain ⟨s1, acc1⟩ := r1
    cases acc1 with
    | true => simp [insertKids, h1]
    | false =>
      cases h2 : insertAux cap fuel s1 b p with
      | none => simp [insertKids, h1, h2]
      | some r2 =>
        obtain ⟨s2, acc2⟩ := r2
        cases acc2 with
        | true => simp [insertKids, h1, h2]
        | false =>
          cases h3 : insertAux cap fuel s2 c p with
          | none => simp [insertKids, h1, h2, h3]
          | some r3 =>
            obtain ⟨s3, acc3⟩ := r3
            cases acc3 with
            | true => simp [insertKids, h1, h2, h3]
            | false =>
              cases h4 : insertAux cap fuel s3 d p with
              | none => simp [insertKids, h1, h2, h3, h4]
              | some r4 =>
                obtain ⟨s4, acc4⟩ := r4
                cases acc4 with
                | true => simp [insertKids, h1, h2, h3, h4]
                | false => simp [insertKids, h1, h2, h3, h4]

theorem insertAux_reject {α : Type} (cap fuel : Nat) (s : Store α) (nid : Nat)
    (p : Point α) (node : Node α) (hg : s.getNode nid = some node)
    (hcb : node.boundary.contains p = false) :
    insertAux cap (fuel + 1) s nid p = some (s, false) := by
  rw [insertAux, hg]
  simp [hcb]

theorem insertAux_append {α : Type} (cap fuel : Nat) (s : Store α) (nid : Nat)
    (p : Point α) (node : Node α) (hg : s.getNode nid = some node)
    (hcb : node.boundary.contains p = true)
    (hlen : node.points.length < cap) (hdiv : node.divided = false) :
    insertAux cap (fuel + 1) s nid p =
      some (s.putNode nid { node with points := node.points ++ [p] }, true) := by
  rw [insertAux, hg]
  simp [hcb, hlen, hdiv]

theorem insertAux_divided {α : Type} (cap fuel : Nat) (s : Store α) (nid : Nat)
    (p : Point α) (node : Node α) (c : Children) (hg : s.getNode nid = some node)
    (hcb : node.boundary.contains p = true) (hdiv : node.divided = true)
    (hch : node.children = some c) :
    insertAux cap (fuel + 1) s nid p =
      insertKids cap fuel s [c.ne, c.nw, c.se, c.sw] p := by
  rw [insertAux, hg]
  simp [hcb, hdiv, hch]
  exact insertKids4 cap fuel s c.ne c.nw c.se c.sw p

theorem insertAux_divided_noch {α : Type} (cap fuel : Nat) (s : Store α) (nid : Nat)
    (p : Point α) (node : Node α) (hg : s.getNode nid = some node)
    (hcb : node.boundary.contains p = true) (hdiv : node.divided = true)
    (hch : node.children = none) :
    insertAux cap (fuel + 1) s nid p = none := by
  rw [insertAux, hg]
  simp [hcb, hdiv, hch]

theorem insertAux_subdiv {α : Type} (cap fuel : Nat) (s : Store α) (nid : Nat)
    (p : Point α) (node : Node α) (hg : s.getNode nid = some node)
    (hcb : node.boundary.contains p = true) (hdiv : node.divided = false)
    (hfull : ¬ node.points.length < cap) :
    insertAux cap (fuel + 1) s nid p =
      insertKids cap fuel (subdivide s node).1
        [s.nextId, s.nextId + 1, s.nextId + 2, s.nextId + 3] p := by
  rw [insertAux, hg]
  simp [hcb, hdiv, hfull, subdivide, subdividePuts]
  exact insertKids4 cap fuel (subdivide s node).1 s.nextId (s.nextId + 1)
    (s.nextId + 2) (s.nextId + 3) p

/-- The main induction over the insert descent: `AuxStmt` holds at every
fuel. -/
theorem insertAux_ok {α : Type} (cap : Nat) (p : Point α) :
    ∀ fuel, AuxStmt cap p fuel := by
  intro fuel
  induction fuel with
  | zero =>
    intro s nid s' acc hinv h
    rw [insertAux] at h
    cases h
  | succ fuel ih =>
    have hK : KidsStmt cap p fuel := kids_of_aux cap p fuel ih
    intro s nid s' acc hinv h
    cases hg : s.getNode nid with
    | none =>
      rw [insertAux, hg] at h
      cases h
    | some node =>
      cases hcb : node.boundary.contains p with
      | false =>
        rw [insertAux_reject cap fuel s nid p node hg hcb] at h
        have h2 := Option.some.inj h
        have he1 : s = s' := congrArg Prod.fst h2
        have he2 : false = acc := congrArg Prod.snd h2
        rw [← he1, ← he2]
        refine ⟨InsOK_refl cap p hinv, ?_, fun _ => Eq.refl _, ?_⟩
        · intro ht
          exact Bool.noConfusion ht
        · intro n hgn hcn
          have hn : node = n := Option.some.inj hgn
          rw [← hn, hcb] at hcn
          exact hcn
      | true =>
        cases hdiv : node.divided with
        | false =>
          by_cases hlen : node.points.length < cap
          · rw [insertAux_append cap fuel s nid p node hg hcb hlen hdiv] at h
            have h2 := Option.some.inj h
            have he1 : _ = s' := congrArg Prod.fst h2
            have he2 : true = acc := congrArg Prod.snd h2
            rw [← he1, ← he2]
            obtain ⟨hok, hpath⟩ := append_step cap s nid node p hg hinv hlen hdiv
            refine ⟨hok, fun _ => hpath hcb, ?_, fun _ _ _ => Eq.refl _⟩
            intro hf
            exact Bool.noConfusion hf
          · rw [insertAux_subdiv cap fuel s nid p node hg hcb hdiv hlen] at h
            have hid : node.id = nid := hinv.2.1 nid node hg
            obtain ⟨hinv1, hpre1, hgp, hne, hnw, hse, hsw, hprov1⟩ :=
              subdivide_step cap s node nid hg hid hdiv hinv
            obtain ⟨hokK, hpathK, hfalseK, hrejK⟩ :=
              hK (subdivide s node).1 [s.nextId, s.nextId + 1, s.nextId + 2, s.nextId + 3]
                s' acc hinv1 h
            have hok1 : InsOK cap p s (subdivide s node).1 :=
              ⟨hinv1, hpre1, subdivide_metaRoot s node,
                fun i n q hh hq => Or.inl (hprov1 i n q hh hq)⟩
            have hcxy : node.boundary.containsXY p.x p.y = true := hcb
            have hacc : acc = true := by
              cases acc with
              | true => exact Eq.refl _
              | false =>
                exfalso
                have hrej := hrejK (Eq.refl _)
                rcases (contains_cover node.boundary p.x p.y).mp hcxy with
                  hcv | hcv | hcv | hcv
                · have hrr := hrej s.nextId _ (by simp) hne
                  simp only [Rectangle.contains] at hrr
                  rw [hcv] at hrr
                  exact Bool.noConfusion hrr
                · have hrr := hrej (s.nextId + 1) _ (by simp) hnw
                  simp only [Rectangle.contains] at hrr
                  rw [hcv] at hrr
                  exact Bool.noConfusion hrr
                · have hrr := hrej (s.nextId + 2) _ (by simp) hse
                  simp only [Rectangle.contains] at hrr
                  rw [hcv] at hrr
                  exact Bool.noConfusion hrr
                · have hrr := hrej (s.nextId + 3) _ (by simp) hsw
                  simp only [Rectangle.contains] at hrr
                  rw [hcv] at hrr
                  exact Bool.noConfusion hrr
            refine ⟨InsOK_trans hok1 hokK, ?_, ?_, fun _ _ _ => hacc⟩
            · intro _
              obtain ⟨k, hk, hp⟩ := hpathK hacc
              obtain ⟨n', hgn', hb', -, hdc'⟩ := hokK.2.1 nid _ hgp
              obtain ⟨hd', hc'⟩ := hdc' (Eq.refl _)
              refine PathTo.step nid n' p
                ⟨s.nextId, s.nextId + 1, s.nextId + 2, s.nextId + 3⟩ k hgn' ?_ hd' ?_ ?_ hp
              · show n'.boundary.contains p = true
                rw [Rectangle.contains, hb']
                exact hcb
              · rw [hc']
              · exact hk
            · intro hf
              rw [hacc] at hf
              exact Bool.noConfusion hf
        | true =>
          cases hch : node.children with
          | none =>
            rw [insertAux_divided_noch cap fuel s nid p node hg hcb hdiv hch] at h
            cases h
          | some c =>
            rw [insertAux_divided cap fuel s nid p node c hg hcb hdiv hch] at h
            obtain ⟨hokK, hpathK, hfalseK, hrejK⟩ :=
              hK s [c.ne, c.nw, c.se, c.sw] s' acc hinv h
            have hcxy : node.boundary.containsXY p.x p.y = true := hcb
            have hacc : acc = true := by
              cases acc with
              | true => exact Eq.refl _
              | false =>
                exfalso
                have hrej := hrejK (Eq.refl _)
                obtain ⟨⟨m1, hm1, hb1⟩, ⟨m2, hm2, hb2⟩, ⟨m3, hm3, hb3⟩, ⟨m4, hm4, hb4⟩⟩ :=
                  hinv.2.2.2 nid node c hg hch
                rcases (contains_cover node.boundary p.x p.y).mp hcxy with
                  hcv | hcv | hcv | hcv
                · have hrr := hrej c.ne m1 (by simp) hm1
                  simp only [Rectangle.contains, hb1] at hrr
                  rw [hcv] at hrr
                  exact Bool.noConfusion hrr
                · have hrr := hrej c.nw m2 (by simp) hm2
                  simp only [Rectangle.contains, hb2] at hrr
                  rw [hcv] at hrr
                  exact Bool.noConfusion hrr
                · have hrr := hrej c.se m3 (by simp) hm3
                  simp only [Rectangle.contains, hb3] at hrr
                  rw [hcv] at hrr
                  exact Bool.noConfusion hrr
                · have hrr := hrej c.sw m4 (by simp) hm4
                  simp only [Rectangle.contains, hb4] at hrr
                  rw [hcv] at hrr
                  exact Bool.noConfusion hrr
            refine ⟨hokK, ?_, ?_, fun _ _ _ => hacc⟩
            · intro _
              obtain ⟨k, hk, hp⟩ := hpathK hacc
              obtain ⟨n', hgn', hb', -, hdc'⟩ := hokK.2.1 nid node hg
              obtain ⟨hd', hc'⟩ := hdc' hdiv
              refine PathTo.step nid n' p c k hgn' ?_ hd' ?_ hk hp
              · show n'.boundary.contains p = true
                rw [Rectangle.contains, hb']
                exact hcb
              · rw [hc', hch]
            · intro hf
              rw [hacc] at hf
              exact Bool.noConfusion hf

/-! ## Query lemmas: branch shapes, soundness, monotonicity, completeness -/

/-- The unrolled four-child chain of `_query` equals the child loop on the
four-element list. -/
theorem queryKids4 {α : Type} (fuel : Nat) (s : Store α) (a b c d : Nat)
    (rect : Rectangle) (f0 : List (Point α)) :
    (match queryAux fuel s a rect f0 with
     | none => none
     | some f1 =>
       match queryAux fuel s b rect f1 with
       | none => none
       | some f2 =>
         match queryAux fuel s c rect f2 with
         | none => none
         | some f3 => queryAux fuel s d rect f3) =
    queryKids fuel s [a, b, c, d] rect f0 := by
  cases h1 : queryAux fuel s a rect f0 with
  | none => simp [queryKids, h1]
  | some f1 =>
    cases h2 : queryAux fuel s b rect f1 with
    | none => simp [queryKids, h1, h2]
    | some f2 =>
      cases h3 : queryAux fuel s c rect f2 with
      | none => simp [queryKids, h1, h2, h3]
      | some f3 =>
        cases h4 : queryAux fuel s d rect f3 with
        | none => simp [queryKids, h1, h2, h3, h4]
        | some f4 => simp [queryKids, h1, h2, h3, h4]

theorem queryAux_reject {α : Type} (fuel : Nat) (s : Store α) (nid : Nat)
    (rect : Rectangle) (found : List (Point α)) (node : Node α)
    (hg : s.getNode nid = some node)
    (hint : node.boundary.intersects rect = false) :
    queryAux (fuel + 1) s nid rect found = some found := by
  rw [queryAux, hg]
  simp [hint]

theorem queryAux_leaf {α : Type} (fuel : Nat) (s : Store α) (nid : Nat)
    (rect : Rectangle) (found : List (Point α)) (node : Node α)
    (hg : s.getNode nid = some node)
    (hint : node.boundary.intersects rect = true) (hdiv : node.divided = false) :
    queryAux (fuel + 1) s nid rect found =
      some (found ++ node.points.filter (fun p => rect.contains p)) := by
  rw [queryAux, hg]
  simp [hint, hdiv]

theorem queryAux_div {α : Type} (fuel : Nat) (s : Store α) (nid : Nat)
    (rect : Rectangle) (found : List (Point α)) (node : Node α) (c : Children)
    (hg : s.getNode nid = some node)
    (hint : node.boundary.intersects rect = true) (hdiv : node.divided = true)
    (hch : node.children = some c) :
    queryAux (fuel + 1) s nid rect found =
      queryKids fuel s [c.ne, c.nw, c.se, c.sw] rect
        (found ++ node.points.filter (fun p => rect.contains p)) := by
  rw [queryAux, hg]
  simp [hint, hdiv, hch]
  exact queryKids4 fuel s c.ne c.nw c.se c.sw rect _

theorem queryAux_div_noch {α : Type} (fuel : Nat) (s : Store α) (nid : Nat)
    (rect : Rectangle) (found : List (Point α)) (node : Node α)
    (hg : s.getNode nid = some node)
    (hint : node.boundary.intersects rect = true) (hdiv : node.divided = true)
    (hch : node.children = none) :
    queryAux (fuel + 1) s nid rect found = none := by
  rw [queryAux, hg]
  simp [hint, hdiv, hch]

/-- Soundness statement for `_query` at a fuel: the result extends the
accumulator, and everything added matches the query rectangle and is stored
somewhere. -/
def QSound {α : Type} (fuel : Nat) : Prop :=
  ∀ (s : Store α) nid rect acc out, queryAux fuel s nid rect acc = some out →
    (∀ q, q ∈ acc → q ∈ out) ∧
    (∀ q, q ∈ out → q ∈ acc ∨ (rect.contains q = true ∧
      ∃ i n, s.getNode i = some n ∧ q ∈ n.points))

/-- `QSound` for the child loop. -/
def QKSound {α : Type} (fuel : Nat) : Prop :=
  ∀ (s : Store α) kids rect acc out, queryKids fuel s kids rect acc = some out →
    (∀ q, q ∈ acc → q ∈ out) ∧
    (∀ q, q ∈ out → q ∈ acc ∨ (rect.contains q = true ∧
      ∃ i n, s.getNode i = some n ∧ q ∈ n.points))

theorem qksound_of_qsound {α : Type} (fuel : Nat) (hA : @QSound α fuel) :
    @QKSound α fuel := by
  intro s kids
  induction kids with
  | nil =>
    intro rect acc out h
    rw [queryKids] at h
    cases Option.some.inj h
    exact ⟨fun q hq => hq, fun q hq => Or.inl hq⟩
  | cons cid rest ih =>
    intro rect acc out h
    rw [queryKids] at h
    cases h1 : queryAux fuel s cid rect acc with
    | none =>
      rw [h1] at h
      cases h
    | some f1 =>
      rw [h1] at h
      obtain ⟨hup1, hdown1⟩ := hA s cid rect acc f1 h1
      obtain ⟨hup2, hdown2⟩ := ih rect f1 out h
      refine ⟨fun q hq => hup2 q (hup1 q hq), ?_⟩
      intro q hq
      rcases hdown2 q hq with hq1 | hrest
      · exact hdown1 q hq1
      · exact Or.inr hrest

theorem qsound_all {α : Type} : ∀ fuel, @QSound α fuel := by
  intro fuel
  induction fuel with
  | zero =>
    intro s nid rect acc out h
    rw [queryAux] at h
    cases h
  | succ fuel ih =>
    have hK := qksound_of_qsound fuel ih
    intro s nid rect acc out h
    cases hg : s.getNode nid with
    | none =>
      rw [queryAux, hg] at h
      cases h
    | some node =>
      cases hint : node.boundary.intersects rect with
      | false =>
        rw [queryAux_reject fuel s nid rect acc node hg hint] at h
        cases Option.some.inj h
        exact ⟨fun q hq => hq, fun q hq => Or.inl hq⟩
      | true =>
        have hstep : ∀ q, q ∈ acc ++ node.points.filter (fun p => rect.contains p) →
            q ∈ acc ∨ (rect.contains q = true ∧
              ∃ i n, s.getNode i = some n ∧ q ∈ n.points) := by
          intro q hq
          rcases List.mem_append.mp hq with hqa | hqf
          · exact Or.inl hqa
          · obtain ⟨hmem, hpred⟩ := List.mem_filter.mp hqf
            exact Or.inr ⟨hpred, nid, node, hg, hmem⟩
        cases hdiv : node.divided with
        | false =>
          rw [queryAux_leaf fuel s nid rect acc node hg hint hdiv] at h
          cases Option.some.inj h
          exact ⟨fun q hq => List.mem_append_left _ hq, hstep⟩
        | true =>
          cases hch : node.children with
          | none =>
            rw [queryAux_div_noch fuel s nid rect acc node hg hint hdiv hch] at h
            cases h
          | some c =>
            rw [queryAux_div fuel s nid rect acc node c hg hint hdiv hch] at h
            obtain ⟨hup, hdown⟩ := hK s [c.ne, c.nw, c.se, c.sw] rect _ out h
            refine ⟨fun q hq => hup q (List.mem_append_left _ hq), ?_⟩
            intro q hq
            rcases hdown q hq with hq1 | hrest
            · exact hstep q hq1
            · exact Or.inr hrest

/-- The child loop only extends the accumulator (monotonicity). -/
theorem queryKids_mono {α : Type} (fuel : Nat) (s : Store α) (kids : List Nat)
    (rect : Rectangle) (acc out : List (Point α))
    (h : queryKids fuel s kids rect acc = some out) : ∀ q, q ∈ acc → q ∈ out :=
  (qksound_of_qsound fuel (qsound_all fuel) s kids rect acc out h).1

/-- Completeness of the child loop, given completeness at one member. -/
theorem queryKids_complete {α : Type} (fuel : Nat) (s : Store α) (rect : Rectangle)
    (q : Point α) (k : Nat)
    (hk : ∀ acc1 out1, queryAux fuel s k rect acc1 = some out1 → q ∈ out1) :
    ∀ kids acc out, k ∈ kids → queryKids fuel s kids rect acc = some out →
      q ∈ out := by
  intro kids
  induction kids with
  | nil =>
    intro acc out hmem h
    exact absurd hmem (List.not_mem_nil k)
  | cons cid rest ih =>
    intro acc out hmem h
    rw [queryKids] at h
    cases h1 : queryAux fuel s cid rect acc with
    | none =>
      rw [h1] at h
      cases h
    | some f1 =>
      rw [h1] at h
      rcases List.mem_cons.mp hmem with rfl | hmem2
      · exact queryKids_mono fuel s rest rect f1 out h q (hk acc f1 h1)
      · exact ih f1 out hmem2 h

/-- Completeness of `_query`: a point reachable along a containing path and
matching the query rectangle is returned by every successful query. -/
theorem queryAux_complete {α : Type} {s : Store α} {nid : Nat} {q : Point α}
    (hpath : PathTo s nid q) :
    ∀ rect, rect.contains q = true →
      ∀ fuel acc out, queryAux fuel s nid rect acc = some out → q ∈ out := by
  induction hpath with
  | here i n p hget hc hmem =>
    intro rect hq fuel acc out h
    cases fuel with
    | zero =>
      rw [queryAux] at h
      cases h
    | succ fuel =>
      have hint : n.boundary.intersects rect = true := intersects_of_mem hc hq
      have hin1 : p ∈ acc ++ n.points.filter (fun r => rect.contains r) :=
        List.mem_append_right _ (List.mem_filter.mpr ⟨hmem, hq⟩)
      cases hdiv : n.divided with
      | false =>
        rw [queryAux_leaf fuel s i rect acc n hget hint hdiv] at h
        cases Option.some.inj h
        exact hin1
      | true =>
        cases hch : n.children with
        | none =>
          rw [queryAux_div_noch fuel s i rect acc n hget hint hdiv hch] at h
          cases h
        | some c =>
          rw [queryAux_div fuel s i rect acc n c hget hint hdiv hch] at h
          exact queryKids_mono fuel s _ rect _ out h p hin1
  | step i n p c k hget hc hdiv hch hk _ ih =>
    intro rect hq fuel acc out h
    cases fuel with
    | zero =>
      rw [queryAux] at h
      cases h
    | succ fuel =>
      have hint : n.boundary.intersects rect = true := intersects_of_mem hc hq
      rw [queryAux_div fuel s i rect acc n c hget hint hdiv hch] at h
      exact queryKids_complete fuel s rect p k (fun acc1 out1 => ih rect hq fuel acc1 out1)
        [c.ne, c.nw, c.se, c.sw] _ out hk h

/-! ## Whole-run invariant: a tree built by `init` plus a sequence of inserts -/

/-- Invariant after a run of inserts `done` against a tree rooted at `r`
with universe boundary `b`: structural invariants, a root record with
boundary `b`, provenance (every stored point was inserted), and a
query-reachable path for every accepted insert. -/
def RunInv {α : Type} (cap : Nat) (b : Rectangle) (r : Nat)
    (done : List (ℚ × ℚ × α)) (s : Store α) : Prop :=
  Inv cap s ∧
  (∃ n, s.getNode r = some n ∧ n.boundary = b) ∧
  (∀ i n q, s.getNode i = some n → q ∈ n.points → (q.x, q.y, q.data) ∈ done) ∧
  (∀ e, e ∈ done → b.containsXY e.1 e.2.1 = true →
    PathTo s r ⟨e.1, e.2.1, e.2.2⟩)

theorem getNode_nil {α : Type} (m : Option Nat) (k i : Nat) :
    (⟨m, [], k⟩ : Store α).getNode i = none := rfl

theorem runinv_init {α : Type} (cap : Nat) (b : Rectangle) :
    RunInv cap b (DiskQuadTree.init (Store.empty : Store α) b cap).rootId []
      (DiskQuadTree.init (Store.empty : Store α) b cap).db := by
  have hchar : ∀ i, (DiskQuadTree.init (Store.empty : Store α) b cap).db.getNode i =
      if i = 0 then some ⟨0, b, [], false, none⟩ else none := by
    intro i
    show (Store.putNode _ 0 _).getNode i = _
    rw [Store.getNode_putNode]
    by_cases h0 : i = 0
    · rw [if_pos h0, if_pos h0]
      rfl
    · rw [if_neg h0, if_neg h0]
      exact getNode_nil _ _ i
  have hrid : (DiskQuadTree.init (Store.empty : Store α) b cap).rootId = 0 := rfl
  rw [hrid]
  refine ⟨⟨?_, ?_, ?_, ?_⟩, ?_, ?_, ?_⟩
  · intro i n h
    rw [hchar i] at h
    by_cases h0 : i = 0
    · show i < 1
      omega
    · rw [if_neg h0] at h
      cases h
  · intro i n h
    rw [hchar i] at h
    by_cases h0 : i = 0
    · rw [if_pos h0] at h
      cases Option.some.inj h
      exact h0.symm
    · rw [if_neg h0] at h
      cases h
  · intro i n h
    rw [hchar i] at h
    by_cases h0 : i = 0
    · rw [if_pos h0] at h
      cases Option.some.inj h
      exact fun _ => ⟨Eq.refl _, by simp⟩
    · rw [if_neg h0] at h
      cases h
  · intro i n c h hch
    rw [hchar i] at h
    by_cases h0 : i = 0
    · rw [if_pos h0] at h
      cases Option.some.inj h
      cases hch
    · rw [if_neg h0] at h
      cases h
  · refine ⟨⟨0, b, [], false, none⟩, ?_, Eq.refl _⟩
    rw [hchar 0, if_pos (Eq.refl 0)]
  · intro i n q h hq
    rw [hchar i] at h
    by_cases h0 : i = 0
    · rw [if_pos h0] at h
      cases Option.some.inj h
      cases hq
    · rw [if_neg h0] at h
      cases h
  · intro e he
    exact absurd he (List.not_mem_nil e)

/-- One accepted-or-rejected top-level insert extends the run invariant. -/
theorem runinv_insert {α : Type} (cap : Nat) (b : Rectangle) (r : Nat)
    (done : List (ℚ × ℚ × α)) (s : Store α) (hri : RunInv cap b r done s)
    (F : Nat) (x y : ℚ) (d : α) (s' : Store α) (acc : Bool)
    (h : insertAux cap F s r ⟨x, y, d⟩ = some (s', acc)) :
    RunInv cap b r (done ++ [(x, y, d)]) s' := by
  obtain ⟨hinv, ⟨rn, hrn, hrb⟩, hprov, hpaths⟩ := hri
  obtain ⟨⟨hinv', hpre, -, hprov'⟩, hpath, -, haccept⟩ :=
    insertAux_ok cap ⟨x, y, d⟩ F s r s' acc hinv h
  obtain ⟨rn', hrn', hrb', -, -⟩ := hpre r rn hrn
  refine ⟨hinv', ⟨rn', hrn', hrb'.trans hrb⟩, ?_, ?_⟩
  · intro i n q hn hq
    rcases hprov' i n q hn hq with ⟨m, hm, hqm⟩ | hqp
    · exact List.mem_append_left _ (hprov i m q hm hqm)
    · rw [hqp]
      exact List.mem_append_right _ (List.mem_singleton.mpr (Eq.refl _))
  · intro e he hcy
    rcases List.mem_append.mp he with hold | hnew
    · exact (hpaths e hold hcy).mono hpre
    · have he2 : e = (x, y, d) := List.mem_singleton.mp hnew
      subst he2
      have hacc : acc = true := by
        refine haccept rn hrn ?_
        show rn.boundary.containsXY x y = true
        rw [hrb]
        exact hcy
      exact hpath hacc

/-- The run invariant after an entire sequence of top-level inserts. -/
theorem runInserts_inv {α : Type} (F : Nat) (b : Rectangle) :
    ∀ (ins done : List (ℚ × ℚ × α)) (t t' : DiskQuadTree α),
      RunInv t.capacity b t.rootId done t.db → runInserts F t ins = some t' →
      t'.rootId = t.rootId ∧ t'.capacity = t.capacity ∧
      RunInv t.capacity b t.rootId (done ++ ins) t'.db := by
  intro ins
  induction ins with
  | nil =>
    intro done t t' hri h
    rw [runInserts] at h
    cases Option.some.inj h
    exact ⟨Eq.refl _, Eq.refl _, by rw [List.append_nil]; exact hri⟩
  | cons q rest ih =>
    intro done t t' hri h
    rw [runInserts] at h
    rw [DiskQuadTree.insert] at h
    cases h1 : insertAux t.capacity F t.db t.rootId ⟨q.1, q.2.1, q.2.2⟩ with
    | none =>
      rw [h1] at h
      cases h
    | some r1 =>
      rw [h1] at h
      obtain ⟨s1, acc⟩ := r1
      have hri1 : RunInv t.capacity b t.rootId (done ++ [q]) s1 :=
        runinv_insert t.capacity b t.rootId done t.db hri F q.1 q.2.1 q.2.2 s1 acc h1
      have hstep := ih (done ++ [q]) ⟨s1, t.rootId, t.capacity⟩ t' hri1 h
      obtain ⟨hr1, hc1, hri2⟩ := hstep
      refine ⟨hr1, hc1, ?_⟩
      rw [List.append_cons done q rest]
      exact hri2

/-! ## Claim C1 -/

/-- C1: for every sequence of insert calls whose points all lie within the
root boundary (tree built by `init` against a fresh store), a subsequent
`range(minX, minY, maxX, maxY)` returns exactly those inserted points whose
coordinates satisfy the closed containment test of the derived query
rectangle (center `((minX+maxX)/2, (minY+maxY)/2)`, half-extents
`((maxX-minX)/2, (maxY-minY)/2)`): no inserted matching point is omitted
and no non-matching or non-inserted point is returned.  The runs are
hypothesised to complete (`some`), which models the terminating executions
of the source. -/
theorem C1_range_exact {α : Type} (b : Rectangle) (cap F F2 : Nat)
    (ins : List (ℚ × ℚ × α)) (t : DiskQuadTree α) (out : List (Point α))
    (minX minY maxX maxY : ℚ)
    (hin : ∀ e, e ∈ ins → b.containsXY e.1 e.2.1 = true)
    (hrun : runInserts F (DiskQuadTree.init Store.empty b cap) ins = some t)
    (hq : t.range F2 minX minY maxX maxY = some out) :
    ∀ p : Point α, p ∈ out ↔
      ((p.x, p.y, p.data) ∈ ins ∧
        (queryRect minX minY maxX maxY).contains p = true) := by
  have h0 := @runinv_init α cap b
  obtain ⟨hroot, hcap, hri⟩ :=
    runInserts_inv F b ins [] (DiskQuadTree.init Store.empty b cap) t h0 hrun
  rw [List.nil_append] at hri
  obtain ⟨hinv, hrootn, hprov, hpaths⟩ := hri
  rw [DiskQuadTree.range] at hq
  rw [hroot] at hq
  intro p
  constructor
  · intro hp
    obtain ⟨-, hdown⟩ := qsound_all F2 t.db _ _ [] out hq
    rcases hdown p hp with hnil | ⟨hcont, i, n, hn, hpn⟩
    · exact absurd hnil (List.not_mem_nil p)
    · exact ⟨hprov i n p hn hpn, hcont⟩
  · rintro ⟨hmem, hcont⟩
    have hpath := hpaths (p.x, p.y, p.data) hmem
      (hin (p.x, p.y, p.data) hmem)
    exact queryAux_complete hpath _ hcont F2 [] out hq

/-- The spec §8 scenario, first half: boundary `(50,50,50,50)`, capacity 4,
two inserted points. -/
def c1run : Option (DiskQuadTree Nat) :=
  runInserts 3 (DiskQuadTree.init Store.empty ⟨50, 50, 50, 50⟩ 4)
    [(10, 10, 0), (20, 20, 1)]

theorem c1run_isSome : c1run.isSome = true := by decide

def c1tree : DiskQuadTree Nat := c1run.get c1run_isSome

def c1out : Option (List (Point Nat)) := c1tree.range 3 0 0 25 25

theorem c1out_isSome : c1out.isSome = true := by decide

/-- Witness for C1 at the spec §8 scenario (query `(0,0,25,25)`),
instantiated at the inserted point `(10, 10)`. -/
theorem C1_range_exact_witness :
    (⟨10, 10, 0⟩ : Point Nat) ∈ c1out.get c1out_isSome ↔
      (((⟨10, 10, 0⟩ : Point Nat).x, (⟨10, 10, 0⟩ : Point Nat).y,
          (⟨10, 10, 0⟩ : Point Nat).data) ∈
          [((10 : ℚ), (10 : ℚ), (0 : Nat)), (20, 20, 1)] ∧
        (queryRect 0 0 25 25).contains (⟨10, 10, 0⟩ : Point Nat) = true) :=
  C1_range_exact ⟨50, 50, 50, 50⟩ 4 3 3 [(10, 10, 0), (20, 20, 1)] c1tree
    (c1out.get c1out_isSome) 0 0 25 25 (by decide)
    (Option.some_get c1run_isSome).symm (Option.some_get c1out_isSome).symm
    ⟨10, 10, 0⟩

/-! ## Claim C8: idempotent initialization -/

theorem init_reuse {α : Type} (s : Store α) (b : Rectangle) (cap r : Nat)
    (hm : s.metaRoot = some r) : DiskQuadTree.init s b cap = ⟨s, r, cap⟩ := by
  rw [DiskQuadTree.init, hm]

theorem init_fresh {α : Type} (s : Store α) (b : Rectangle) (cap : Nat)
    (hm : s.metaRoot = none) :
    DiskQuadTree.init s b cap =
      ⟨⟨some s.nextId, (s.nextId, ⟨s.nextId, b, [], false, none⟩) :: s.nodes,
        s.nextId + 1⟩, s.nextId, cap⟩ := by
  rw [DiskQuadTree.init, hm]
  rfl

/-- C8: tree initialization is idempotent against a given store.  First
conjunct: for every store, a second `init` against the store the first one
returns observes and reuses the existing root id and performs no write (the
store is returned unchanged), whatever boundary or capacity the second call
supplies.  Second conjunct: a store whose metadata record exists is reused
as is.  Third conjunct: the first initialization of a fresh store persists
the metadata record pointing at a fresh root id and the empty undivided
root node with the supplied boundary. -/
theorem C8_init_idempotent {α : Type} (s : Store α) (b b2 : Rectangle)
    (cap cap2 : Nat) :
    ((DiskQuadTree.init (DiskQuadTree.init s b cap).db b2 cap2).rootId =
        (DiskQuadTree.init s b cap).rootId ∧
      (DiskQuadTree.init (DiskQuadTree.init s b cap).db b2 cap2).db =
        (DiskQuadTree.init s b cap).db) ∧
    (∀ r, s.metaRoot = some r → DiskQuadTree.init s b cap = ⟨s, r, cap⟩) ∧
    (s.metaRoot = none →
      (DiskQuadTree.init s b cap).db.metaRoot =
          some (DiskQuadTree.init s b cap).rootId ∧
      (DiskQuadTree.init s b cap).rootId = s.nextId ∧
      (DiskQuadTree.init s b cap).db.getNode (DiskQuadTree.init s b cap).rootId =
        some ⟨s.nextId, b, [], false, none⟩) := by
  refine ⟨?_, fun r hm => init_reuse s b cap r hm, fun hm => ?_⟩
  · cases hm : s.metaRoot with
    | some r =>
      rw [init_reuse s b cap r hm]
      rw [init_reuse s b2 cap2 r hm]
      exact ⟨Eq.refl _, Eq.refl _⟩
    | none =>
      rw [init_fresh s b cap hm]
      rw [init_reuse _ b2 cap2 s.nextId (Eq.refl _)]
      exact ⟨Eq.refl _, Eq.refl _⟩
  · rw [init_fresh s b cap hm]
    refine ⟨Eq.refl _, Eq.refl _, ?_⟩
    show (Store.putNode _ s.nextId _).getNode s.nextId = _
    rw [Store.getNode_putNode, if_pos (Eq.refl _)]

/-- Witness for C8 on a fresh store: the second initialization returns the
same root id and the same store, and the metadata record exists after the
first. -/
theorem C8_init_idempotent_witness :
    ((DiskQuadTree.init (DiskQuadTree.init (Store.empty : Store Nat)
          ⟨50, 50, 50, 50⟩ 4).db ⟨1, 1, 1, 1⟩ 9).rootId =
        (DiskQuadTree.init (Store.empty : Store Nat) ⟨50, 50, 50, 50⟩ 4).rootId ∧
      (DiskQuadTree.init (DiskQuadTree.init (Store.empty : Store Nat)
          ⟨50, 50, 50, 50⟩ 4).db ⟨1, 1, 1, 1⟩ 9).db =
        (DiskQuadTree.init (Store.empty : Store Nat) ⟨50, 50, 50, 50⟩ 4).db) ∧
    (DiskQuadTree.init (Store.empty : Store Nat) ⟨50, 50, 50, 50⟩ 4).db.metaRoot =
      some (DiskQuadTree.init (Store.empty : Store Nat) ⟨50, 50, 50, 50⟩ 4).rootId := by
  have h := C8_init_idempotent (Store.empty : Store Nat) ⟨50, 50, 50, 50⟩
    ⟨1, 1, 1, 1⟩ 4 9
  exact ⟨h.1, (h.2.2 (Eq.refl _)).1⟩

/-! ## Claim C10: inverted query corners -/

/-- A query whose rectangle contains no point at all returns the
accumulator unchanged. -/
theorem queryAux_nomatch {α : Type} :
    ∀ fuel (s : Store α) nid rect acc out,
      (∀ px py, rect.containsXY px py = false) →
      queryAux fuel s nid rect acc = some out → out = acc := by
  intro fuel
  induction fuel with
  | zero =>
    intro s nid rect acc out hrect h
    rw [queryAux] at h
    cases h
  | succ fuel ih =>
    have hkids : ∀ (s : Store α) kids rect acc out,
        (∀ px py, rect.containsXY px py = false) →
        queryKids fuel s kids rect acc = some out → out = acc := by
      intro s kids
      induction kids with
      | nil =>
        intro rect acc out hrect h
        rw [queryKids] at h
        exact (Option.some.inj h).symm
      | cons cid rest ihk =>
        intro rect acc out hrect h
        rw [queryKids] at h
        cases h1 : queryAux fuel s cid rect acc with
        | none =>
          rw [h1] at h
          cases h
        | some f1 =>
          rw [h1] at h
          have hf1 : f1 = acc := ih s cid rect acc f1 hrect h1
          rw [hf1] at h
          exact ihk rect acc out hrect h
    intro s nid rect acc out hrect h
    have hfil : ∀ (node : Node α),
        node.points.filter (fun p => rect.contains p) = [] := by
      intro node
      refine List.filter_eq_nil_iff.mpr ?_
      intro a _
      rw [Rectangle.contains, hrect a.x a.y]
      simp
    cases hg : s.getNode nid with
    | none =>
      rw [queryAux, hg] at h
      cases h
    | some node =>
      cases hint : node.boundary.intersects rect with
      | false =>
        rw [queryAux_reject fuel s nid rect acc node hg hint] at h
        exact (Option.some.inj h).symm
      | true =>
        cases hdiv : node.divided with
        | false =>
          rw [queryAux_leaf fuel s nid rect acc node hg hint hdiv] at h
          rw [hfil node, List.append_nil] at h
          exact (Option.some.inj h).symm
        | true =>
          cases hch : node.children with
          | none =>
            rw [queryAux_div_noch fuel s nid rect acc node hg hint hdiv hch] at h
            cases h
          | some c =>
            rw [queryAux_div fuel s nid rect acc node c hg hint hdiv hch] at h
            rw [hfil node, List.append_nil] at h
            exact hkids s [c.ne, c.nw, c.se, c.sw] rect acc out hrect h

/-- C10: for every tree state, `range` called with inverted corners
(`minX > maxX` or `minY > maxY`) returns the empty sequence whenever the
traversal completes: the derived query rectangle has a negative half-extent
on the inverted axis, so its closed containment test holds for no point.
The operation performs no store writes by construction (`queryAux` takes
the store read-only), so the store is unchanged. -/
theorem C10_inverted_range_empty {α : Type} (F : Nat) (t : DiskQuadTree α)
    (minX minY maxX maxY : ℚ) (out : List (Point α))
    (hc : minX > maxX ∨ minY > maxY)
    (hq : t.range F minX minY maxX maxY = some out) : out = [] := by
  have hrect : ∀ px py,
      (queryRect minX minY maxX maxY).containsXY px py = false := by
    rcases hc with h | h
    · intro px py
      refine containsXY_false_of_neg_w ?_ px py
      have hw : (queryRect minX minY maxX maxY).w = (maxX - minX) / 2 := rfl
      rw [hw]
      linarith
    · intro px py
      refine containsXY_false_of_neg_h ?_ px py
      have hh : (queryRect minX minY maxX maxY).h = (maxY - minY) / 2 := rfl
      rw [hh]
      linarith
  rw [DiskQuadTree.range] at hq
  exact queryAux_nomatch F t.db t.rootId _ [] out hrect hq

/-- Witness for C10: an inverted query on a freshly initialized tree. -/
theorem C10_inverted_range_empty_witness :
    (DiskQuadTree.init (Store.empty : Store Nat) ⟨50, 50, 50, 50⟩ 4).range 2
      25 25 0 0 = some [] ∧ ([] : List (Point Nat)) = [] :=
  ⟨by decide, C10_inverted_range_empty 2
    (DiskQuadTree.init Store.empty ⟨50, 50, 50, 50⟩ 4) 25 25 0 0 []
    (Or.inl (by norm_num)) (by decide)⟩

/-! ## Claims C7 and C4: subdivision geometry and frame -/

theorem childBoundary_ne (b : Rectangle) :
    childBoundary b 1 (-1) =
      ⟨b.x + b.w / 2, b.y - b.h / 2, b.w / 2, b.h / 2⟩ := by
  simp only [childBoundary]
  congr 1 <;> ring

theorem childBoundary_nw (b : Rectangle) :
    childBoundary b (-1) (-1) =
      ⟨b.x - b.w / 2, b.y - b.h / 2, b.w / 2, b.h / 2⟩ := by
  simp only [childBoundary]
  congr 1 <;> ring

theorem childBoundary_se (b : Rectangle) :
    childBoundary b 1 1 =
      ⟨b.x + b.w / 2, b.y + b.h / 2, b.w / 2, b.h / 2⟩ := by
  simp only [childBoundary]
  congr 1 <;> ring

theorem childBoundary_sw (b : Rectangle) :
    childBoundary b (-1) 1 =
      ⟨b.x - b.w / 2, b.y + b.h / 2, b.w / 2, b.h / 2⟩ := by
  simp only [childBoundary]
  congr 1 <;> ring

/-- C7: the four children created by subdividing a node with boundary
`(x, y, w, h)` each have half-extents `(w/2, h/2)`, an empty points list,
`divided = false`, fresh pairwise-distinct ids unknown to the store, and
centers at the parent center offset by `+w/2` on x for tags containing `e`
and `-w/2` for `w`, and by `+h/2` on y for tags containing `s` and `-h/2`
for `n` (`ne, nw, se, sw` in put order); consequently a point lies in the
parent's boundary iff it lies in at least one child boundary (the four
quadrants cover the parent exactly, overlapping only on the closed center
lines). -/
theorem C7_subdivide_quadrants {α : Type} (s : Store α) (node : Node α)
    (hids : IdsBelow s) :
    ((subdividePuts s.nextId node).1 =
      [(s.nextId, ⟨s.nextId,
          ⟨node.boundary.x + node.boundary.w / 2, node.boundary.y - node.boundary.h / 2,
           node.boundary.w / 2, node.boundary.h / 2⟩, [], false, none⟩),
       (s.nextId + 1, ⟨s.nextId + 1,
          ⟨node.boundary.x - node.boundary.w / 2, node.boundary.y - node.boundary.h / 2,
           node.boundary.w / 2, node.boundary.h / 2⟩, [], false, none⟩),
       (s.nextId + 2, ⟨s.nextId + 2,
          ⟨node.boundary.x + node.boundary.w / 2, node.boundary.y + node.boundary.h / 2,
           node.boundary.w / 2, node.boundary.h / 2⟩, [], false, none⟩),
       (s.nextId + 3, ⟨s.nextId + 3,
          ⟨node.boundary.x - node.boundary.w / 2, node.boundary.y + node.boundary.h / 2,
           node.boundary.w / 2, node.boundary.h / 2⟩, [], false, none⟩),
       (node.id, (subdividePuts s.nextId node).2)]) ∧
    List.Pairwise (fun a b => a ≠ b)
      [s.nextId, s.nextId + 1, s.nextId + 2, s.nextId + 3] ∧
    (∀ j, j ∈ [s.nextId, s.nextId + 1, s.nextId + 2, s.nextId + 3] →
      s.getNode j = none) ∧
    (∀ px py, node.boundary.containsXY px py = true ↔
      ((childBoundary node.boundary 1 (-1)).containsXY px py = true ∨
       (childBoundary node.boundary (-1) (-1)).containsXY px py = true ∨
       (childBoundary node.boundary 1 1).containsXY px py = true ∨
       (childBoundary node.boundary (-1) 1).containsXY px py = true)) := by
  refine ⟨?_, ?_, ?_, fun px py => contains_cover node.boundary px py⟩
  · show ([(s.nextId, (⟨s.nextId, childBoundary node.boundary 1 (-1), [], false,
        none⟩ : Node α)),
      (s.nextId + 1, ⟨s.nextId + 1, childBoundary node.boundary (-1) (-1), [], false, none⟩),
      (s.nextId + 2, ⟨s.nextId + 2, childBoundary node.boundary 1 1, [], false, none⟩),
      (s.nextId + 3, ⟨s.nextId + 3, childBoundary node.boundary (-1) 1, [], false, none⟩),
      (node.id, (subdividePuts s.nextId node).2)]) = _
    rw [childBoundary_ne, childBoundary_nw, childBoundary_se, childBoundary_sw]
  · simp
  · intro j hj
    cases hg : s.getNode j with
    | none => exact Eq.refl _
    | some n =>
      have := hids j n hg
      simp only [List.mem_cons, List.not_mem_nil, or_false] at hj
      rcases hj with rfl | rfl | rfl | rfl <;> omega

/-- Witness for C7 at a concrete store and node. -/
theorem C7_subdivide_quadrants_witness :
    (subdividePuts (⟨some 0, [(0, ⟨0, ⟨50, 50, 50, 50⟩, [], false, none⟩)],
        1⟩ : Store Nat).nextId ⟨0, ⟨50, 50, 50, 50⟩, [], false, none⟩).1 =
      [(1, ⟨1, ⟨75, 25, 25, 25⟩, [], false, none⟩),
       (2, ⟨2, ⟨25, 25, 25, 25⟩, [], false, none⟩),
       (3, ⟨3, ⟨75, 75, 25, 25⟩, [], false, none⟩),
       (4, ⟨4, ⟨25, 75, 25, 25⟩, [], false, none⟩),
       (0, (subdividePuts 1 (⟨0, ⟨50, 50, 50, 50⟩, [], false,
          none⟩ : Node Nat)).2)] ∧
    ((⟨50, 50, 50, 50⟩ : Rectangle).containsXY 50 10 = true ↔
      ((childBoundary ⟨50, 50, 50, 50⟩ 1 (-1)).containsXY 50 10 = true ∨
       (childBoundary ⟨50, 50, 50, 50⟩ (-1) (-1)).containsXY 50 10 = true ∨
       (childBoundary ⟨50, 50, 50, 50⟩ 1 1).containsXY 50 10 = true ∨
       (childBoundary ⟨50, 50, 50, 50⟩ (-1) 1).containsXY 50 10 = true)) := by
  have h := C7_subdivide_quadrants
    (⟨some 0, [(0, ⟨0, ⟨50, 50, 50, 50⟩, [], false, none⟩)], 1⟩ : Store Nat)
    ⟨0, ⟨50, 50, 50, 50⟩, [], false, none⟩
    (by
      intro i n hg
      have hm := Store.getNode_mem hg
      simp only [List.mem_singleton] at hm
      cases hm
      show (0 : Nat) < 1
      omega)
  refine ⟨?_, h.2.2.2 50 10⟩
  have h1 := h.1
  rw [h1]
  norm_num

/-- C4: subdivision of a node leaves the parent's own `points` array and
its contents unchanged (no point migrates into the new children, which are
created empty), persists each of the four child records individually before
the parent record is rewritten (the put list below is applied head first by
`applyPuts`, the parent put last), and rewrites the parent only to set
`divided = true` and populate its `children` map; consequently the points
resident at the moment of subdivision remain attached to the node and are
returned by any later query that reaches the node with a rectangle
containing them. -/
theorem C4_subdivide_frame {α : Type} (s : Store α) (node : Node α) :
    ((subdividePuts s.nextId node).2.points = node.points ∧
     (subdividePuts s.nextId node).2.id = node.id ∧
     (subdividePuts s.nextId node).2.boundary = node.boundary ∧
     (subdividePuts s.nextId node).2.divided = true ∧
     (subdividePuts s.nextId node).2.children =
       some ⟨s.nextId, s.nextId + 1, s.nextId + 2, s.nextId + 3⟩) ∧
    (∃ c1 c2 c3 c4 : Node α,
      c1.points = [] ∧ c2.points = [] ∧ c3.points = [] ∧ c4.points = [] ∧
      (subdividePuts s.nextId node).1 =
        [(s.nextId, c1), (s.nextId + 1, c2), (s.nextId + 2, c3),
         (s.nextId + 3, c4), (node.id, (subdividePuts s.nextId node).2)] ∧
      subdivide s node =
        (applyPuts { s with nextId := s.nextId + 4 } (subdividePuts s.nextId node).1,
         (subdividePuts s.nextId node).2)) ∧
    ((subdivide s node).1.getNode node.id = some (subdividePuts s.nextId node).2) ∧
    (∀ (q : Point α) rect fuel acc out, q ∈ node.points → rect.contains q = true →
      node.boundary.intersects rect = true →
      queryAux fuel (subdivide s node).1 node.id rect acc = some out →
      q ∈ out) := by
  refine ⟨⟨Eq.refl _, Eq.refl _, Eq.refl _, Eq.refl _, Eq.refl _⟩,
    ⟨_, _, _, _, Eq.refl _, Eq.refl _, Eq.refl _, Eq.refl _, Eq.refl _, Eq.refl _⟩,
    ?_, ?_⟩
  · rw [getNode_subdivide, if_pos (Eq.refl _)]
    rfl
  · intro q rect fuel acc out hq hcont hint h
    cases fuel with
    | zero =>
      rw [queryAux] at h
      cases h
    | succ fuel =>
      have hgp : (subdivide s node).1.getNode node.id =
          some { node with
                 divided := true
                 children := some ⟨s.nextId, s.nextId + 1, s.nextId + 2, s.nextId + 3⟩ } := by
        rw [getNode_subdivide, if_pos (Eq.refl _)]
      rw [queryAux_div fuel (subdivide s node).1 node.id rect acc _ _ hgp hint
        (Eq.refl _) (Eq.refl _)] at h
      refine queryKids_mono fuel (subdivide s node).1 _ rect _ out h q ?_
      exact List.mem_append_right _ (List.mem_filter.mpr ⟨hq, hcont⟩)

/-- Witness for C4: subdividing a root holding one point; a query touching
the now-divided node still returns the resident point. -/
theorem C4_subdivide_frame_witness :
    (subdividePuts (⟨some 0, [(0, ⟨0, ⟨50, 50, 50, 50⟩, [⟨10, 10, 0⟩], false,
        none⟩)], 1⟩ : Store Nat).nextId
      ⟨0, ⟨50, 50, 50, 50⟩, [⟨10, 10, 0⟩], false, none⟩).2.points =
      (⟨0, ⟨50, 50, 50, 50⟩, [⟨10, 10, 0⟩], false, none⟩ : Node Nat).points ∧
    (⟨10, 10, 0⟩ : Point Nat) ∈ [(⟨10, 10, 0⟩ : Point Nat)] := by
  have h := C4_subdivide_frame
    (⟨some 0, [(0, ⟨0, ⟨50, 50, 50, 50⟩, [⟨10, 10, 0⟩], false, none⟩)],
      1⟩ : Store Nat)
    ⟨0, ⟨50, 50, 50, 50⟩, [⟨10, 10, 0⟩], false, none⟩
  refine ⟨h.1.1, ?_⟩
  exact h.2.2.2 ⟨10, 10, 0⟩ (queryRect 0 0 25 25) 3 [] [⟨10, 10, 0⟩]
    (by decide) (by decide) (by decide) (by decide)

/-! ## Claim C3: out-of-boundary insert is silently dropped -/

/-- C3 (amended): for every point `(x, y)` not contained in the root node's
boundary, the top-level `insert(x, y, payload)` does **not** raise an
error: `_insert` rejects the point with `false`, the top-level call
discards that boolean, returns normally, and the store is unchanged — the
point is silently dropped (the behavior spec §7 attributes to the source
while recommending an explicit `BoundaryViolation` instead). -/
theorem C3_insert_outside_silent {α : Type} (s : Store α) (r cap F : Nat)
    (x y : ℚ) (d : α) (n : Node α) (hg : s.getNode r = some n)
    (hc : n.boundary.containsXY x y = false) :
    DiskQuadTree.insert (F + 1) (⟨s, r, cap⟩ : DiskQuadTree α) x y d =
      some ⟨s, r, cap⟩ := by
  show (match insertAux cap (F + 1) s r ⟨x, y, d⟩ with
        | none => none
        | some (s1, _) => some (⟨s1, r, cap⟩ : DiskQuadTree α)) = some ⟨s, r, cap⟩
  rw [insertAux_reject cap F s r ⟨x, y, d⟩ n hg hc]

/-- Witness for the amended C3. -/
theorem C3_insert_outside_silent_witness :
    DiskQuadTree.insert 1
      (⟨(DiskQuadTree.init (Store.empty : Store Nat) ⟨0, 0, 4, 4⟩ 4).db, 0, 4⟩ :
        DiskQuadTree Nat) 10 10 0 =
      some ⟨(DiskQuadTree.init (Store.empty : Store Nat) ⟨0, 0, 4, 4⟩ 4).db, 0, 4⟩ :=
  C3_insert_outside_silent _ 0 4 0 10 10 0 ⟨0, ⟨0, 0, 4, 4⟩, [], false, none⟩
    (by decide) (by decide)

/-- Counterexample to C3 as stated: inserting the out-of-boundary point
`(10, 10)` into a tree over universe `(0, 0, 4, 4)` does not raise any
error — the call returns normally (`some`, not the error outcome `none`)
with the tree unchanged, so no `BoundaryViolation` is signalled. -/
theorem C3_insert_outside_counterexample :
    DiskQuadTree.insert 1
        (DiskQuadTree.init (Store.empty : Store Nat) ⟨0, 0, 4, 4⟩ 4) 10 10 0 =
      some (DiskQuadTree.init (Store.empty : Store Nat) ⟨0, 0, 4, 4⟩ 4) ∧
    DiskQuadTree.insert 1
        (DiskQuadTree.init (Store.empty : Store Nat) ⟨0, 0, 4, 4⟩ 4) 10 10 0 ≠
      none :=
  ⟨by decide, by decide⟩

/-! ## Claims C9 and C2: `update` -/

/-- The unrolled four-child chain of `_findPoint` equals the child loop on
the four-element list. -/
theorem findPointKids4 {α : Type} (fuel : Nat) (s : Store α) (a b c d : Nat)
    (x y : ℚ) :
    (match findPointAux (α := α) fuel s a x y with
     | none => none
     | some (some p) => some (some p)
     | some none =>
       match findPointAux fuel s b x y with
       | none => none
       | some (some p) => some (some p)
       | some none =>
         match findPointAux fuel s c x y with
         | none => none
         | some (some p) => some (some p)
         | some none => findPointAux fuel s d x y) =
    findPointKids fuel s [a, b, c, d] x y := by
  cases h1 : findPointAux (α := α) fuel s a x y with
  | none => simp [findPointKids, h1]
  | some r1 =>
    cases r1 with
    | some p => simp [findPointKids, h1]
    | none =>
      cases h2 : findPointAux (α := α) fuel s b x y with
      | none => simp [findPointKids, h1, h2]
      | some r2 =>
        cases r2 with
        | some p => simp [findPointKids, h1, h2]
        | none =>
          cases h3 : findPointAux (α := α) fuel s c x y with
          | none => simp [findPointKids, h1, h2, h3]
          | some r3 =>
            cases r3 with
            | some p => simp [findPointKids, h1, h2, h3]
            | none =>
              cases h4 : findPointAux (α := α) fuel s d x y with
              | none => simp [findPointKids, h1, h2, h3, h4]
              | some r4 =>
                cases r4 with
                | none => simp [findPointKids, h1, h2, h3, h4]
                | some p => simp [findPointKids, h1, h2, h3, h4]

/-! Branch-shape lemmas for `_findPoint`. -/

theorem findPointAux_outside {α : Type} (fuel : Nat) (s : Store α) (nid : Nat)
    (x y : ℚ) (node : Node α) (hg : s.getNode nid = some node)
    (hcb : node.boundary.containsXY x y = false) :
    findPointAux fuel.succ s nid x y = some none := by
  rw [findPointAux, hg]
  simp [hcb]

theorem findPointAux_found {α : Type} (fuel : Nat) (s : Store α) (nid : Nat)
    (x y : ℚ) (node : Node α) (p : Point α) (hg : s.getNode nid = some node)
    (hcb : node.boundary.containsXY x y = true)
    (hf : node.points.find? (fun p => decide (p.x = x) && decide (p.y = y)) = some p) :
    findPointAux fuel.succ s nid x y = some (some p) := by
  rw [findPointAux, hg]
  simp [hcb, hf]

theorem findPointAux_leafmiss {α : Type} (fuel : Nat) (s : Store α) (nid : Nat)
    (x y : ℚ) (node : Node α) (hg : s.getNode nid = some node)
    (hcb : node.boundary.containsXY x y = true)
    (hf : node.points.find? (fun p => decide (p.x = x) && decide (p.y = y)) = none)
    (hdiv : node.divided = false) :
    findPointAux fuel.succ s nid x y = some none := by
  rw [findPointAux, hg]
  simp [hcb, hf, hdiv]

theorem findPointAux_div {α : Type} (fuel : Nat) (s : Store α) (nid : Nat)
    (x y : ℚ) (node : Node α) (c : Children) (hg : s.getNode nid = some node)
    (hcb : node.boundary.containsXY x y = true)
    (hf : node.points.find? (fun p => decide (p.x = x) && decide (p.y = y)) = none)
    (hdiv : node.divided = true) (hch : node.children = some c) :
    findPointAux fuel.succ s nid x y =
      findPointKids fuel s [c.ne, c.nw, c.se, c.sw] x y := by
  rw [findPointAux, hg]
  simp [hcb, hf, hdiv, hch]
  exact findPointKids4 fuel s c.ne c.nw c.se c.sw x y

theorem findPointAux_div_noch {α : Type} (fuel : Nat) (s : Store α) (nid : Nat)
    (x y : ℚ) (node : Node α) (hg : s.getNode nid = some node)
    (hcb : node.boundary.containsXY x y = true)
    (hf : node.points.find? (fun p => decide (p.x = x) && decide (p.y = y)) = none)
    (hdiv : node.divided = true) (hch : node.children = none) :
    findPointAux fuel.succ s nid x y = none := by
  rw [findPointAux, hg]
  simp [hcb, hf, hdiv, hch]

/-- When no stored point anywhere in the store has exactly the queried
coordinates, a completed `_findPoint` search reports null. -/
theorem findPointAux_nomatch {α : Type} (x y : ℚ) :
    ∀ fuel (s : Store α) nid res,
      (∀ i n q, s.getNode i = some n → q ∈ n.points → ¬(q.x = x ∧ q.y = y)) →
      findPointAux fuel s nid x y = some res → res = none := by
  intro fuel
  induction fuel with
  | zero =>
    intro s nid res hno h
    rw [findPointAux] at h
    cases h
  | succ fuel ih =>
    have hkids : ∀ (s : Store α) kids res,
        (∀ i n q, s.getNode i = some n → q ∈ n.points → ¬(q.x = x ∧ q.y = y)) →
        findPointKids fuel s kids x y = some res → res = none := by
      intro s kids
      induction kids with
      | nil =>
        intro res hno h
        rw [findPointKids] at h
        exact (Option.some.inj h).symm
      | cons cid rest ihk =>
        intro res hno h
        rw [findPointKids] at h
        cases h1 : findPointAux fuel s cid x y with
        | none =>
          rw [h1] at h
          cases h
        | some r1 =>
          have hr1 : r1 = none := ih s cid r1 hno h1
          rw [h1, hr1] at h
          exact ihk res hno h
    intro s nid res hno h
    cases hg : s.getNode nid with
    | none =>
      rw [findPointAux, hg] at h
      cases h
    | some node =>
      cases hcb : node.boundary.containsXY x y with
      | false =>
        rw [findPointAux_outside fuel s nid x y node hg hcb] at h
        exact (Option.some.inj h).symm
      | true =>
        cases hf : node.points.find?
            (fun p => decide (p.x = x) && decide (p.y = y)) with
        | some p =>
          exfalso
          have hmem := List.mem_of_find?_eq_some hf
          have hpred := List.find?_some hf
          simp only [Bool.and_eq_true, decide_eq_true_eq] at hpred
          exact hno nid node p hg hmem hpred
        | none =>
          cases hdiv : node.divided with
          | false =>
            rw [findPointAux_leafmiss fuel s nid x y node hg hcb hf hdiv] at h
            exact (Option.some.inj h).symm
          | true =>
            cases hch : node.children with
            | none =>
              rw [findPointAux_div_noch fuel s nid x y node hg hcb hf hdiv hch] at h
              cases h
            | some c =>
              rw [findPointAux_div fuel s nid x y node c hg hcb hf hdiv hch] at h
              exact hkids s [c.ne, c.nw, c.se, c.sw] res hno h

/-- C9: for every tree state whose search completes, `update(x, y, d)`
where no stored point has coordinates exactly `(x, y)` fails with the
`Point not found` error, and the persisted state is unchanged by the
failed call (the returned store is the input store; no write precedes the
throw). -/
theorem C9_update_not_found {α : Type} (s : Store α) (r cap F : Nat)
    (x y : ℚ) (d : α) (res : Option (Point α))
    (hno : ∀ i n q, s.getNode i = some n → q ∈ n.points → ¬(q.x = x ∧ q.y = y))
    (hrun : findPointAux F s r x y = some res) :
    DiskQuadTree.update F (⟨s, r, cap⟩ : DiskQuadTree α) x y d =
      UpdRes.notFound s := by
  have hres : res = none := findPointAux_nomatch x y F s r res hno hrun
  rw [hres] at hrun
  show (match findPointAux F s r x y with
        | none => UpdRes.err
        | some none => UpdRes.notFound s
        | some (some _) =>
          match updateNode s r x y d with
          | none => UpdRes.err
          | some s1 => UpdRes.ok s1) = UpdRes.notFound s
  rw [hrun]

/-- Witness for C9: updating coordinates never inserted fails with the
not-found outcome and leaves the store unchanged. -/
theorem C9_update_not_found_witness :
    DiskQuadTree.update 2
      (⟨⟨some 0, [(0, ⟨0, ⟨0, 0, 4, 4⟩, [⟨1, 1, 5⟩], false, none⟩)], 1⟩, 0, 4⟩ :
        DiskQuadTree Nat) 3 3 7 =
      UpdRes.notFound
        ⟨some 0, [(0, ⟨0, ⟨0, 0, 4, 4⟩, [⟨1, 1, 5⟩], false, none⟩)], 1⟩ := by
  refine C9_update_not_found _ 0 4 2 3 3 7 none ?_ (by decide)
  intro i n q hg hq
  have hm := Store.getNode_mem hg
  simp only [List.mem_singleton] at hm
  cases hm
  simp only [List.mem_singleton] at hq
  cases hq
  intro hxy
  exact absurd hxy.1 (by decide)

/-- The capacity-1 run that puts the second point into the `nw` child of
the root: universe `(0, 0, 4, 4)`, inserts `(1, 1)` then `(-1, -1)`. -/
def c2run : Option (DiskQuadTree Nat) :=
  runInserts 5 (DiskQuadTree.init Store.empty ⟨0, 0, 4, 4⟩ 1)
    [(1, 1, 0), (-1, -1, 1)]

/-- Whether an `update` outcome is the success outcome. -/
def UpdRes.isOk {α : Type} : UpdRes α → Bool
  | .ok _ => true
  | _ => false

/-- C2 fails on the code (code bug): after the capacity-1 run, the point
`(-1, -1)` was inserted and `_findPoint` locates it in the `nw` child of
the root, yet `update(-1, -1, 7)` ends in a store error instead of success:
`_findNodeIdRecursive` is called with a child id where a node object is
expected, finds nothing, and `_updateNode` then fetches the absent key
`node:null`, which throws.  The same update succeeds when the point lives
in the root itself (second conjunct), isolating the bug to
descendant-resident points. -/
theorem C2_update_child_point_errors :
    c2run.map (fun t => (findPointAux 5 t.db t.rootId (-1) (-1),
        t.update 5 (-1) (-1) 7)) =
      some (some (some ⟨-1, -1, 1⟩), UpdRes.err) ∧
    c2run.map (fun t => (t.update 5 1 1 7).isOk) = some true :=
  ⟨by decide, by decide⟩

/-! ## Claim C5: `nearest` -/

theorem mem_ordInsert {α : Type} (x y : ℚ) (a q : Point α) :
    ∀ l, q ∈ ordInsert x y a l ↔ q = a ∨ q ∈ l := by
  intro l
  induction l with
  | nil => simp [ordInsert]
  | cons b l ih =>
    rw [ordInsert]
    by_cases hab : sqDist x y a ≤ sqDist x y b
    · rw [if_pos hab]
      simp
    · rw [if_neg hab]
      simp only [List.mem_cons, ih]
      constructor
      · rintro (h | h | h)
        · exact Or.inr (Or.inl h)
        · exact Or.inl h
        · exact Or.inr (Or.inr h)
      · rintro (h | h | h)
        · exact Or.inr (Or.inl h)
        · exact Or.inl h
        · exact Or.inr (Or.inr h)

theorem mem_sortByDist {α : Type} (x y : ℚ) (q : Point α) :
    ∀ l, q ∈ sortByDist x y l ↔ q ∈ l := by
  intro l
  induction l with
  | nil => simp [sortByDist]
  | cons a l ih =>
    rw [sortByDist, mem_ordInsert]
    simp [ih]

theorem ordInsert_ne_nil {α : Type} (x y : ℚ) (a : Point α) (l : List (Point α)) :
    ordInsert x y a l ≠ [] := by
  cases l with
  | nil =>
    rw [ordInsert]
    exact List.cons_ne_nil a []
  | cons b l =>
    rw [ordInsert]
    by_cases hab : sqDist x y a ≤ sqDist x y b
    · rw [if_pos hab]
      exact List.cons_ne_nil _ _
    · rw [if_neg hab]
      exact List.cons_ne_nil _ _

theorem sortByDist_eq_nil {α : Type} (x y : ℚ) (l : List (Point α)) :
    sortByDist x y l = [] ↔ l = [] := by
  cases l with
  | nil => simp [sortByDist]
  | cons a l =>
    rw [sortByDist]
    simp only [List.cons_ne_nil, iff_false, ne_eq]
    exact ordInsert_ne_nil x y a (sortByDist x y l)

/-- The head of the stable distance sort is at minimal distance among the
candidates. -/
theorem sortByDist_head_min {α : Type} (x y : ℚ) :
    ∀ (l : List (Point α)) h t, sortByDist x y l = h :: t →
      ∀ q, q ∈ l → sqDist x y h ≤ sqDist x y q := by
  intro l
  induction l with
  | nil =>
    intro h t hs q hq
    cases hs
  | cons a l ih =>
    intro h t hs q hq
    rw [sortByDist] at hs
    cases hsl : sortByDist x y l with
    | nil =>
      have hl : l = [] := (sortByDist_eq_nil x y l).mp hsl
      rw [hsl, ordInsert] at hs
      have hha : h = a := (List.cons.inj hs).1.symm
      subst hha
      rcases List.mem_cons.mp hq with rfl | hq2
      · exact le_refl _
      · rw [hl] at hq2
        cases hq2
    | cons b t2 =>
      rw [hsl, ordInsert] at hs
      by_cases hab : sqDist x y a ≤ sqDist x y b
      · rw [if_pos hab] at hs
        have hha : h = a := (List.cons.inj hs).1.symm
        subst hha
        rcases List.mem_cons.mp hq with rfl | hq2
        · exact le_refl _
        · exact le_trans hab (ih b t2 hsl q hq2)
      · rw [if_neg hab] at hs
        have hhb : h = b := (List.cons.inj hs).1.symm
        subst hhb
        rcases List.mem_cons.mp hq with rfl | hq2
        · exact le_of_not_le hab
        · exact ih h t2 hsl q hq2

/-- The head of the stable distance sort is the **first** candidate at
minimal distance: it is the first list element whose distance is at most
the head's (the stable tie-break of the source's stable `sort`). -/
theorem sortByDist_head_first {α : Type} (x y : ℚ) :
    ∀ (l : List (Point α)) h t, sortByDist x y l = h :: t →
      l.find? (fun q => decide (sqDist x y q ≤ sqDist x y h)) = some h := by
  intro l
  induction l with
  | nil =>
    intro h t hs
    cases hs
  | cons a l ih =>
    intro h t hs
    rw [sortByDist] at hs
    cases hsl : sortByDist x y l with
    | nil =>
      have hl : l = [] := (sortByDist_eq_nil x y l).mp hsl
      rw [hsl, ordInsert] at hs
      have hha : h = a := (List.cons.inj hs).1.symm
      subst hha
      rw [List.find?_cons_of_pos _ (by simp)]
    | cons b t2 =>
      rw [hsl, ordInsert] at hs
      by_cases hab : sqDist x y a ≤ sqDist x y b
      · rw [if_pos hab] at hs
        have hha : h = a := (List.cons.inj hs).1.symm
        subst hha
        rw [List.find?_cons_of_pos _ (by simp)]
      · rw [if_neg hab] at hs
        have hhb : h = b := (List.cons.inj hs).1.symm
        subst hhb
        rw [List.find?_cons_of_neg _ (by simpa using hab)]
        exact ih h t2 hsl

theorem queryRect_square (x y radius : ℚ) :
    queryRect (x - radius) (y - radius) (x + radius) (y + radius) =
      ⟨x, y, radius, radius⟩ := by
  simp only [queryRect]
  congr 1 <;> ring

/-- C5: when the underlying range query completes with candidate list
`cs`, `nearest(x, y, radius)` returns none exactly when `cs` is empty;
otherwise it returns a candidate of `cs` at minimal squared Euclidean
distance to `(x, y)`, and precisely the first such candidate in `cs`'s
order (the stable-sort tie-break); every returned point lies within the
closed square `[x-radius, x+radius] × [y-radius, y+radius]`, so a point
outside that square is never returned even if it is the closest in the
tree; and the default radius is 100 (`nearestDefault`). -/
theorem C5_nearest_bounded_min {α : Type} (F : Nat) (t : DiskQuadTree α)
    (x y radius : ℚ) (cs : List (Point α))
    (hr : t.range F (x - radius) (y - radius) (x + radius) (y + radius) = some cs) :
    (t.nearest F x y radius = some none ↔ cs = []) ∧
    (∀ p, t.nearest F x y radius = some (some p) →
      p ∈ cs ∧ (∀ q, q ∈ cs → sqDist x y p ≤ sqDist x y q) ∧
      cs.find? (fun q => decide (sqDist x y q ≤ sqDist x y p)) = some p ∧
      |p.x - x| ≤ radius ∧ |p.y - y| ≤ radius) ∧
    DiskQuadTree.nearestDefault F t x y = t.nearest F x y 100 := by
  have hne : t.nearest F x y radius = some ((sortByDist x y cs).head?) := by
    rw [DiskQuadTree.nearest, hr]
  refine ⟨?_, ?_, Eq.refl _⟩
  · rw [hne]
    constructor
    · intro h
      have h2 := Option.some.inj h
      have h3 : sortByDist x y cs = [] := by
        cases hs : sortByDist x y cs with
        | nil => exact Eq.refl _
        | cons a l =>
          rw [hs] at h2
          cases h2
      exact (sortByDist_eq_nil x y cs).mp h3
    · intro h
      rw [h]
      rfl
  · intro p hp
    rw [hne] at hp
    have h2 := Option.some.inj hp
    cases hs : sortByDist x y cs with
    | nil =>
      rw [hs] at h2
      cases h2
    | cons h0 t0 =>
      rw [hs] at h2
      have hph : p = h0 := (Option.some.inj h2).symm
      subst hph
      have hmem : p ∈ cs := (mem_sortByDist x y p cs).mp (hs ▸ List.mem_cons_self p t0)
      have hsq : |p.x - x| ≤ radius ∧ |p.y - y| ≤ radius := by
        have hr2 := hr
        rw [DiskQuadTree.range] at hr2
        obtain ⟨-, hdown⟩ := qsound_all F t.db t.rootId _ [] cs hr2
        rcases hdown p hmem with hnil | ⟨hcont, -⟩
        · exact absurd hnil (List.not_mem_nil p)
        · rw [queryRect_square] at hcont
          simp only [Rectangle.contains, Rectangle.containsXY, Bool.and_eq_true,
            decide_eq_true_eq] at hcont
          exact hcont
      exact ⟨hmem, sortByDist_head_min x y cs p t0 hs,
        sortByDist_head_first x y cs p t0 hs, hsq⟩

/-- Witness for C5 on the spec §8 tree: nearest to `(16, 16)` within the
default-sized square is `(20, 20)`, the closer of the two stored points. -/
theorem C5_nearest_bounded_min_witness :
    (⟨20, 20, 1⟩ : Point Nat) ∈ [(⟨10, 10, 0⟩ : Point Nat), ⟨20, 20, 1⟩] ∧
    (∀ q, q ∈ [(⟨10, 10, 0⟩ : Point Nat), ⟨20, 20, 1⟩] →
      sqDist 16 16 (⟨20, 20, 1⟩ : Point Nat) ≤ sqDist 16 16 q) ∧
    ([(⟨10, 10, 0⟩ : Point Nat), ⟨20, 20, 1⟩].find?
      (fun q => decide (sqDist 16 16 q ≤ sqDist 16 16 (⟨20, 20, 1⟩ : Point Nat)))) =
      some ⟨20, 20, 1⟩ ∧
    |(20 : ℚ) - 16| ≤ 100 ∧ |(20 : ℚ) - 16| ≤ 100 :=
  (C5_nearest_bounded_min 3 c1tree 16 16 100 [⟨10, 10, 0⟩, ⟨20, 20, 1⟩]
    (by decide)).2.1 ⟨20, 20, 1⟩ (by decide)

/-! ## Claim C6: node-state invariants across operations -/

theorem setDataAt_length {α : Type} (d : α) :
    ∀ (i : Nat) (l : List (Point α)), (setDataAt i d l).length = l.length := by
  intro i l
  induction l generalizing i with
  | nil => rw [setDataAt]
  | cons p l ih =>
    cases i with
    | zero => simp [setDataAt]
    | succ j =>
      rw [setDataAt]
      simp only [List.length_cons]
      rw [ih j]

/-! Branch-shape lemmas for `_updateNode`. -/

theorem updateNode_nofind {α : Type} (s : Store α) (r : Nat) (x y : ℚ) (d : α)
    (hfn : findNodeId s r x y = some none) : updateNode s r x y d = none := by
  rw [updateNode, hfn]

theorem updateNode_badget {α : Type} (s : Store α) (r : Nat) (x y : ℚ) (d : α)
    (nodeId : Nat) (hfn : findNodeId s r x y = some (some nodeId))
    (hg : s.getNode nodeId = none) : updateNode s r x y d = none := by
  rw [updateNode, hfn]
  simp [hg]

theorem updateNode_write {α : Type} (s : Store α) (r : Nat) (x y : ℚ) (d : α)
    (nodeId : Nat) (node : Node α) (i : Nat)
    (hfn : findNodeId s r x y = some (some nodeId))
    (hg : s.getNode nodeId = some node)
    (hidx : node.points.findIdx? (fun p => decide (p.x = x) && decide (p.y = y)) =
      some i) :
    updateNode s r x y d =
      some (s.putNode nodeId { node with points := setDataAt i d node.points }) := by
  rw [updateNode, hfn]
  simp [hg, hidx]

theorem updateNode_skip {α : Type} (s : Store α) (r : Nat) (x y : ℚ) (d : α)
    (nodeId : Nat) (node : Node α)
    (hfn : findNodeId s r x y = some (some nodeId))
    (hg : s.getNode nodeId = some node)
    (hidx : node.points.findIdx? (fun p => decide (p.x = x) && decide (p.y = y)) =
      none) :
    updateNode s r x y d = some s := by
  rw [updateNode, hfn]
  simp [hg, hidx]

/-- `_updateNode` preserves the node-state invariant and never clears a
`divided` flag: it only replaces one point's payload in one record. -/
theorem updateNode_preserves {α : Type} (cap : Nat) (s s' : Store α) (r : Nat)
    (x y : ℚ) (d : α) (hok : StoreOK cap s)
    (h : updateNode s r x y d = some s') :
    StoreOK cap s' ∧
    (∀ i n n', s.getNode i = some n → s'.getNode i = some n' →
      n.divided = true → n'.divided = true ∧ n'.children = n.children) := by
  cases hfn : findNodeId s r x y with
  | none =>
    rw [updateNode, hfn] at h
    cases h
  | some onid =>
    cases onid with
    | none =>
      rw [updateNode_nofind s r x y d hfn] at h
      cases h
    | some nodeId =>
      cases hg : s.getNode nodeId with
      | none =>
        rw [updateNode_badget s r x y d nodeId hfn hg] at h
        cases h
      | some node =>
        cases hidx : node.points.findIdx?
            (fun p => decide (p.x = x) && decide (p.y = y)) with
        | some i =>
          rw [updateNode_write s r x y d nodeId node i hfn hg hidx] at h
          have hs' : s' = s.putNode nodeId
              { node with points := setDataAt i d node.points } :=
            (Option.some.inj h).symm
          subst hs'
          constructor
          · intro j n hj
            rw [Store.getNode_putNode] at hj
            by_cases he : j = nodeId
            · rw [if_pos he] at hj
              cases Option.some.inj hj
              intro hf
              obtain ⟨hc, hl⟩ := hok nodeId node hg hf
              refine ⟨hc, ?_⟩
              rw [setDataAt_length]
              exact hl
            · rw [if_neg he] at hj
              exact hok j n hj
          · intro j n n' hjn hjn' hdiv
            rw [Store.getNode_putNode] at hjn'
            by_cases he : j = nodeId
            · rw [if_pos he] at hjn'
              rw [he] at hjn
              have hn : n = node := (Option.some.inj (hg.symm.trans hjn)).symm
              cases Option.some.inj hjn'
              rw [hn] at hdiv ⊢
              exact ⟨hdiv, Eq.refl _⟩
            · rw [if_neg he] at hjn'
              have hn : n' = n := (Option.some.inj (hjn.symm.trans hjn')).symm
              rw [hn]
              exact ⟨hdiv, Eq.refl _⟩
        | none =>
          rw [updateNode_skip s r x y d nodeId node hfn hg hidx] at h
          have hs' : s' = s := (Option.some.inj h).symm
          subst hs'
          refine ⟨hok, ?_⟩
          intro j n n' hjn hjn' hdiv
          have hn : n' = n := (Option.some.inj (hjn.symm.trans hjn')).symm
          rw [hn]
          exact ⟨hdiv, Eq.refl _⟩

/-- The subdivision trigger: an insertion arriving at an undivided node
whose boundary contains the point subdivides that node iff its points list
is already at capacity. -/
theorem insert_trigger {α : Type} (cap fuel : Nat) (s s' : Store α) (nid : Nat)
    (p : Point α) (acc : Bool) (node : Node α) (hinv : Inv cap s)
    (hg : s.getNode nid = some node) (hc : node.boundary.contains p = true)
    (hdiv : node.divided = false)
    (h : insertAux cap (fuel + 1) s nid p = some (s', acc)) :
    (∃ n', s'.getNode nid = some n' ∧ n'.divided = true) ↔
      cap ≤ node.points.length := by
  by_cases hlen : node.points.length < cap
  · rw [insertAux_append cap fuel s nid p node hg hc hlen hdiv] at h
    have hs' : s' = s.putNode nid { node with points := node.points ++ [p] } :=
      (congrArg Prod.fst (Option.some.inj h)).symm
    subst hs'
    constructor
    · rintro ⟨n', hgn', hd'⟩
      rw [Store.getNode_putNode, if_pos (Eq.refl _)] at hgn'
      cases Option.some.inj hgn'
      rw [hdiv] at hd'
      cases hd'
    · intro hcap
      omega
  · rw [insertAux_subdiv cap fuel s nid p node hg hc hdiv hlen] at h
    have hid : node.id = nid := hinv.2.1 nid node hg
    obtain ⟨hinv1, -, hgp, -, -, -, -, -⟩ :=
      subdivide_step cap s node nid hg hid hdiv hinv
    obtain ⟨⟨-, hpre, -, -⟩, -, -, -⟩ :=
      kids_of_aux cap p fuel (insertAux_ok cap p fuel) (subdivide s node).1
        [s.nextId, s.nextId + 1, s.nextId + 2, s.nextId + 3] s' acc hinv1 h
    obtain ⟨n', hgn', -, -, hdc⟩ := hpre nid _ hgp
    obtain ⟨hd', -⟩ := hdc (Eq.refl _)
    constructor
    · intro _
      omega
    · intro _
      exact ⟨n', hgn', hd'⟩

/-- A store whose records all sit below the counter, carry their key as id,
and are undivided child-free small leaves satisfies the invariant bundle
(enough to bootstrap concrete witnesses). -/
theorem Inv_simple {α : Type} (cap : Nat) (s : Store α)
    (h : ∀ e, e ∈ s.nodes → e.1 < s.nextId ∧ e.2.id = e.1 ∧
      e.2.children = none ∧ e.2.divided = false ∧ e.2.points.length ≤ cap) :
    Inv cap s := by
  refine ⟨?_, ?_, ?_, ?_⟩
  · intro i n hg
    exact (h (i, n) (Store.getNode_mem hg)).1
  · intro i n hg
    exact (h (i, n) (Store.getNode_mem hg)).2.1
  · intro i n hg
    intro _
    exact ⟨(h (i, n) (Store.getNode_mem hg)).2.2.1,
      (h (i, n) (Store.getNode_mem hg)).2.2.2.2⟩
  · intro i n c hg hch
    have := (h (i, n) (Store.getNode_mem hg)).2.2.1
    rw [this] at hch
    cases hch

/-- C6: the operations preserve the spec §3 node-state invariant — an
undivided node has no `children` field and at most `capacity` points — and
`divided`, once true, never reverts (nor does a divided node's `children`
map change): conjunct 1 for the insert descent on invariant-satisfying
stores, conjunct 2 for `update`'s write; the read-only operations `range`
and `nearest` perform no store writes at all (conjuncts 4 and 5 exhibit
them as pure functions of the store).  Conjunct 3 is the trigger law:
an insertion reaching an undivided node whose boundary contains the point
subdivides it exactly when the points list is already at capacity. -/
theorem C6_node_state_invariants {α : Type} (cap : Nat) :
    (∀ (fuel : Nat) (s s' : Store α) (nid : Nat) (p : Point α) (acc : Bool),
      Inv cap s → insertAux cap fuel s nid p = some (s', acc) →
      StoreOK cap s' ∧
      ∀ i n n', s.getNode i = some n → s'.getNode i = some n' →
        n.divided = true → n'.divided = true ∧ n'.children = n.children) ∧
    (∀ (s s' : Store α) (r : Nat) (x y : ℚ) (d : α), StoreOK cap s →
      updateNode s r x y d = some s' →
      StoreOK cap s' ∧
      ∀ i n n', s.getNode i = some n → s'.getNode i = some n' →
        n.divided = true → n'.divided = true ∧ n'.children = n.children) ∧
    (∀ (fuel : Nat) (s s' : Store α) (nid : Nat) (p : Point α) (acc : Bool)
      (node : Node α), Inv cap s → s.getNode nid = some node →
      node.boundary.contains p = true → node.divided = false →
      insertAux cap (fuel + 1) s nid p = some (s', acc) →
      ((∃ n', s'.getNode nid = some n' ∧ n'.divided = true) ↔
        cap ≤ node.points.length)) ∧
    (∀ (F : Nat) (t : DiskQuadTree α) (minX minY maxX maxY : ℚ),
      t.range F minX minY maxX maxY =
        queryAux F t.db t.rootId (queryRect minX minY maxX maxY) []) ∧
    (∀ (F : Nat) (t : DiskQuadTree α) (x y radius : ℚ),
      t.nearest F x y radius =
        (t.range F (x - radius) (y - radius) (x + radius) (y + radius)).map
          (fun cs => (sortByDist x y cs).head?)) := by
  refine ⟨?_, ?_, ?_, ?_, ?_⟩
  · intro fuel s s' nid p acc hinv h
    obtain ⟨⟨hinv', hpre, -, -⟩, -, -, -⟩ :=
      insertAux_ok cap p fuel s nid s' acc hinv h
    refine ⟨hinv'.2.2.1, ?_⟩
    intro i n n' hn hn' hdiv
    obtain ⟨n2, hn2, -, -, hdc⟩ := hpre i n hn
    have he : n2 = n' := Option.some.inj (hn2 ▸ hn')
    obtain ⟨hd2, hc2⟩ := hdc hdiv
    rw [← he]
    exact ⟨hd2, hc2⟩
  · intro s s' r x y d hok h
    exact updateNode_preserves cap s s' r x y d hok h
  · intro fuel s s' nid p acc node hinv hg hc hdiv h
    exact insert_trigger cap fuel s s' nid p acc node hinv hg hc hdiv h
  · intro F t minX minY maxX maxY
    rw [DiskQuadTree.range]
  · intro F t x y radius
    rw [DiskQuadTree.nearest]
    cases hr : t.range F (x - radius) (y - radius) (x + radius) (y + radius) with
    | none => rfl
    | some cs => rfl

/-- Concrete capacity-1 store for the C6 witness: one empty root. -/
def c6s0 : Store Nat := ⟨some 0, [(0, ⟨0, ⟨0, 0, 4, 4⟩, [], false, none⟩)], 1⟩

/-- The store after inserting `(1, 1)` (append branch, no subdivision). -/
def c6s1 : Store Nat := ((insertAux 1 2 c6s0 0 ⟨1, 1, 0⟩).getD (c6s0, false)).1

/-- The store after also inserting `(-1, -1)` (triggers the subdivision). -/
def c6s2 : Store Nat := ((insertAux 1 2 c6s1 0 ⟨-1, -1, 1⟩).getD (c6s0, false)).1

/-- The store after updating the root-resident point's payload. -/
def c6s3 : Store Nat := (updateNode c6s1 0 1 1 9).getD c6s0

/-- Witness for C6 on a concrete capacity-1 run: the invariant survives the
first insert and the update, and the second insert subdivides the root
exactly because its points list is at capacity. -/
theorem C6_node_state_invariants_witness :
    StoreOK 1 c6s1 ∧ StoreOK 1 c6s3 ∧
    ((∃ n', c6s2.getNode 0 = some n' ∧ n'.divided = true) ↔
      1 ≤ (⟨0, ⟨0, 0, 4, 4⟩, [(⟨1, 1, 0⟩ : Point Nat)], false,
        none⟩ : Node Nat).points.length) := by
  have hC := @C6_node_state_invariants Nat 1
  have hinv0 : Inv 1 c6s0 := Inv_simple 1 c6s0 (by decide)
  have h1 : insertAux 1 2 c6s0 0 (⟨1, 1, 0⟩ : Point Nat) = some (c6s1, true) := by
    decide
  obtain ⟨hok1, -⟩ := hC.1 2 c6s0 c6s1 0 ⟨1, 1, 0⟩ true hinv0 h1
  have hinv1 : Inv 1 c6s1 :=
    (insertAux_ok 1 ⟨1, 1, 0⟩ 2 c6s0 0 c6s1 true hinv0 h1).1.1
  have h3 : updateNode c6s1 0 1 1 9 = some c6s3 := by decide
  obtain ⟨hok3, -⟩ := hC.2.1 c6s1 c6s3 0 1 1 9 hinv1.2.2.1 h3
  have h2 : insertAux 1 (1 + 1) c6s1 0 (⟨-1, -1, 1⟩ : Point Nat) =
      some (c6s2, true) := by decide
  have hget1 : c6s1.getNode 0 =
      some ⟨0, ⟨0, 0, 4, 4⟩, [⟨1, 1, 0⟩], false, none⟩ := by decide
  have htrig := hC.2.2.1 1 c6s1 c6s2 0 ⟨-1, -1, 1⟩ true
    ⟨0, ⟨0, 0, 4, 4⟩, [⟨1, 1, 0⟩], false, none⟩ hinv1 hget1 (by decide)
    (by decide) h2
  exact ⟨hok1, hok3, htrig⟩

end GeoQuarry
